import Mathlib

/-!
Verification of the progressive PII sanitization pipeline of the Arbetsytan
repository (apps/api/text_processing.py and its call sites in apps/api/main.py).

The Python code works by applying ordered `re` substitutions and searches.  We
embed it shallowly: a small backtracking regular-expression engine reproduces
Python's leftmost, first-of-backtracking match semantics for exactly the
constructs used by the source patterns (character classes, greedy bounded and
unbounded repetition of classes, alternation, word boundaries, negative
lookahead).  Each source regex is transcribed as a pattern term, and each
source function (normalize_text, mask_text_normal / strict / paranoid,
mask_text, pii_gate_check, plus the three ingestion call sites) is translated
definition by definition.

Character classes are modelled on the alphabet the source exercises: ASCII
plus the Swedish letters appearing in the source patterns.  Python's
Unicode-wide classes agree with this model on all inputs considered here.
-/

namespace Arbetsytan

/-! ## Character classes -/

/-- Python whitespace class, as used by `\s`, `str.strip` and `str.rstrip`. -/
def pySpace (c : Char) : Bool :=
  c = ' ' || c = '\t' || c = '\n' || c = '\r' || c = '\x0b' || c = '\x0c'

/-- Lower-casing for IGNORECASE matching: ASCII plus the Swedish letters used
in the source patterns. -/
def lowerSw (c : Char) : Char :=
  if c = 'Å' then 'å'
  else if c = 'Ä' then 'ä'
  else if c = 'Ö' then 'ö'
  else if c = 'É' then 'é'
  else c.toLower

/-- Python `\w`: alphanumerics and underscore (ASCII plus the Swedish letters
used by the source). -/
def wordChar (c : Char) : Bool :=
  c.isAlphanum || c = '_' || c = 'å' || c = 'ä' || c = 'ö' ||
    c = 'Å' || c = 'Ä' || c = 'Ö' || c = 'é' || c = 'É'

/-- Python `\d` (ASCII digits 0-9). -/
def isDig (c : Char) : Bool := c.isDigit

/-- The class `[- ]` used as separator in the Swedish phone patterns. -/
def sepChar (c : Char) : Bool := c = '-' || c = ' '

/-- The class `[\w\.-]` of the email patterns. -/
def wdd (c : Char) : Bool := wordChar c || c = '.' || c = '-'

/-- The class `[^\s]` of the URL pattern. -/
def nonSpace (c : Char) : Bool := !pySpace c

/-- `.` in a single-line pattern: anything except a newline. -/
def anyNotNl (c : Char) : Bool := c != '\n'

/-! ## A tiny backtracking regex engine

Semantics follow Python's `re`: scanning positions left to right, and at each
position exploring alternatives in pattern order with greedy quantifiers, the
first successful parse wins.  Unbounded repetition appears in the source only
over single-character classes, which keeps the matcher structurally
recursive. -/

inductive RE : Type where
  | cls (p : Char → Bool) : RE
  | epsR : RE
  | seqR (r1 r2 : RE) : RE
  | altR (r1 r2 : RE) : RE
  | starCls (p : Char → Bool) : RE
  | wb : RE
  | nla (r : RE) : RE

/-- The character immediately before the current position: the last consumed
character if any, otherwise the last character before the match start. -/
def prevChar (crev pre : List Char) : Option Char :=
  match crev with
  | c :: _ => some c
  | [] => pre.head?

def optWord : Option Char → Bool
  | some c => wordChar c
  | none => false

/-- Word-boundary test (`\b`). -/
def wbHolds (crev pre rest : List Char) : Bool :=
  optWord (prevChar crev pre) != optWord rest.head?

/-- Greedy matching of `p*`: consume as much as possible, then give back one
character at a time while the continuation fails. -/
def starLoop {α : Type} (p : Char → Bool) (crev rest : List Char)
    (k : List Char → List Char → Option α) : Option α :=
  match rest with
  | [] => k crev []
  | c :: rs =>
    if p c then
      match starLoop p (c :: crev) rs k with
      | some x => some x
      | none => k crev (c :: rs)
    else k crev (c :: rs)

/-- Continuation-passing matcher.  `pre` is the (reversed) text before the
match start, `crev` the (reversed) characters consumed so far, `rest` the
remaining input.  The continuation receives the updated `crev` and `rest`;
the first success in backtracking order is returned. -/
def mCont {α : Type} : RE → List Char → List Char → List Char →
    (List Char → List Char → Option α) → Option α
  | RE.cls p, _, crev, rest, k =>
    match rest with
    | [] => none
    | c :: rs => if p c then k (c :: crev) rs else none
  | RE.epsR, _, crev, rest, k => k crev rest
  | RE.seqR r1 r2, pre, crev, rest, k =>
    mCont r1 pre crev rest (fun crev2 rest2 => mCont r2 pre crev2 rest2 k)
  | RE.altR r1 r2, pre, crev, rest, k =>
    match mCont r1 pre crev rest k with
    | some x => some x
    | none => mCont r2 pre crev rest k
  | RE.starCls p, _, crev, rest, k => starLoop p crev rest k
  | RE.wb, pre, crev, rest, k =>
    if wbHolds crev pre rest then k crev rest else none
  | RE.nla r, pre, crev, rest, k =>
    match mCont (α := List Char × List Char) r pre crev rest
        (fun c2 r2 => some (c2, r2)) with
    | some _ => none
    | none => k crev rest

/-- Try to match `r` at the current position; on success return the matched
characters (in order) and the remaining input. -/
def matchAt (r : RE) (pre s : List Char) : Option (List Char × List Char) :=
  mCont r pre [] s (fun crev rest => some (crev.reverse, rest))

/-- Leftmost search (`re.search`).  Returns the skipped prefix, the matched
characters and the remaining input. -/
def searchSk (r : RE) :
    List Char → List Char → Option (List Char × List Char × List Char)
  | pre, [] =>
    match matchAt r pre [] with
    | some (m, rest) => some ([], m, rest)
    | none => none
  | pre, c :: rs =>
    match matchAt r pre (c :: rs) with
    | some (m, rest) => some ([], m, rest)
    | none =>
      match searchSk r (c :: pre) rs with
      | some (sk, m, rest) => some (c :: sk, m, rest)
      | none => none

/-- `re.sub` with a replacement function: replace all non-overlapping matches,
scanning left to right on the original text (fuelled recursion; the wrapper
supplies ample fuel). -/
def subAllF (r : RE) (f : List Char → List Char) :
    Nat → List Char → List Char → List Char
  | 0, _, s => s
  | Nat.succ fuel, pre, s =>
    match searchSk r pre s with
    | none => s
    | some (sk, m, rest) =>
      match m with
      | [] =>
        match rest with
        | [] => sk ++ f []
        | c :: rs =>
          sk ++ f [] ++ c :: subAllF r f fuel (c :: (sk.reverse ++ pre)) rs
      | _ :: _ =>
        sk ++ f m ++ subAllF r f fuel (m.reverse ++ sk.reverse ++ pre) rest

def subAll (r : RE) (f : List Char → List Char) (s : List Char) : List Char :=
  subAllF r f (s.length + 1) [] s

/-- `re.finditer`: all non-overlapping matches with their start positions. -/
def findIterF (r : RE) :
    Nat → List Char → List Char → Nat → List (Nat × List Char)
  | 0, _, _, _ => []
  | Nat.succ fuel, pre, s, pos =>
    match searchSk r pre s with
    | none => []
    | some (sk, m, rest) =>
      let mstart := pos + sk.length
      match m with
      | [] =>
        match rest with
        | [] => [(mstart, [])]
        | c :: rs =>
          (mstart, []) ::
            findIterF r fuel (c :: (sk.reverse ++ pre)) rs (mstart + 1)
      | _ :: _ =>
        (mstart, m) ::
          findIterF r fuel (m.reverse ++ sk.reverse ++ pre) rest
            (mstart + m.length)

def findIter (r : RE) (s : List Char) : List (Nat × List Char) :=
  findIterF r (s.length + 1) [] s 0

/-- `re.search(...) is not None`. -/
def reSearch (r : RE) (s : List Char) : Bool :=
  (searchSk r [] s).isSome

/-- `re.match` anchored at the start of the string. -/
def reMatchB (r : RE) (s : List Char) : Bool :=
  (matchAt r [] s).isSome

/-- An anchored `^...$` match of the whole string. -/
def fullMatch (r : RE) (s : List Char) : Bool :=
  (mCont (α := Unit) r [] [] s
    (fun _ rest => match rest with | [] => some () | _ :: _ => none)).isSome

/-! ### Pattern combinators -/

def chrE (c : Char) : RE := RE.cls (fun x => x = c)

def chrCI (c : Char) : RE := RE.cls (fun x => lowerSw x = lowerSw c)

def strLit (s : String) : RE :=
  s.data.foldr (fun c r => RE.seqR (chrE c) r) RE.epsR

def strLitCI (s : String) : RE :=
  s.data.foldr (fun c r => RE.seqR (chrCI c) r) RE.epsR

/-- `p+` for a character class. -/
def plusCls (p : Char → Bool) : RE := RE.seqR (RE.cls p) (RE.starCls p)

/-- Exactly `n` repetitions of a character class. -/
def repCls (p : Char → Bool) : Nat → RE
  | 0 => RE.epsR
  | n + 1 => RE.seqR (RE.cls p) (repCls p n)

/-- At most `n` repetitions of a character class, greedy. -/
def upToCls (p : Char → Bool) : Nat → RE
  | 0 => RE.epsR
  | n + 1 => RE.altR (RE.seqR (RE.cls p) (upToCls p n)) RE.epsR

/-- `p{m,n}`, greedy. -/
def rngCls (p : Char → Bool) (m n : Nat) : RE :=
  RE.seqR (repCls p m) (upToCls p (n - m))

/-- `r?`, greedy. -/
def optE (r : RE) : RE := RE.altR r RE.epsR

/-- At most `n` repetitions of a subpattern, greedy. -/
def upToR (r : RE) : Nat → RE
  | 0 => RE.epsR
  | n + 1 => RE.altR (RE.seqR r (upToR r n)) RE.epsR

/-! ## Source regex patterns (apps/api/text_processing.py)

Each definition transcribes one Python regex literal; the original is quoted
in the doc comment. -/

/-- Pattern (19|20). -/
def pfx1920 : RE := RE.altR (strLit "19") (strLit "20")

/-- Email pattern of mask_text_normal / mask_text_paranoid (lines 108, 192):
regex \b[\w\.-]+@[\w\.-]+\.\w+\b (IGNORECASE has no effect: only classes). -/
def emailMaskPat : RE :=
  RE.seqR RE.wb (RE.seqR (plusCls wdd) (RE.seqR (chrE '@')
    (RE.seqR (plusCls wdd) (RE.seqR (chrE '.')
      (RE.seqR (plusCls wordChar) RE.wb)))))

/-- Personnummer pattern of mask_text_normal (line 112):
regex \b(19|20)\d{6}[- ]\d{4}\b|\b(19|20)\d{10}\b. -/
def pnrMaskPat : RE :=
  RE.altR
    (RE.seqR RE.wb (RE.seqR pfx1920 (RE.seqR (repCls isDig 6)
      (RE.seqR (RE.cls sepChar) (RE.seqR (repCls isDig 4) RE.wb)))))
    (RE.seqR RE.wb (RE.seqR pfx1920 (RE.seqR (repCls isDig 10) RE.wb)))

/-- Phone pattern 1 (line 117): regex
.+46\s*\d{1,2}[- ]?\d{2,3}[- ]?\d{2,3}[- ]?\d{2,4} with a leading plus. -/
def phone1Pat : RE :=
  RE.seqR (strLit "+46") (RE.seqR (RE.starCls pySpace)
    (RE.seqR (rngCls isDig 1 2) (RE.seqR (optE (RE.cls sepChar))
      (RE.seqR (rngCls isDig 2 3) (RE.seqR (optE (RE.cls sepChar))
        (RE.seqR (rngCls isDig 2 3) (RE.seqR (optE (RE.cls sepChar))
          (rngCls isDig 2 4))))))))

/-- Phone pattern 2 (line 118): regex
\b0\d{1,2}[- ]\d{2,3}[- ]?\d{2,3}[- ]?\d{2,4}\b. -/
def phone2Pat : RE :=
  RE.seqR RE.wb (RE.seqR (chrE '0')
    (RE.seqR (rngCls isDig 1 2) (RE.seqR (RE.cls sepChar)
      (RE.seqR (rngCls isDig 2 3) (RE.seqR (optE (RE.cls sepChar))
        (RE.seqR (rngCls isDig 2 3) (RE.seqR (optE (RE.cls sepChar))
          (RE.seqR (rngCls isDig 2 4) RE.wb))))))))

/-- Phone pattern 3 (line 119): regex
\b07\d[- ]\d{2,3}[- ]?\d{2,3}[- ]?\d{2,4}\b. -/
def phone3Pat : RE :=
  RE.seqR RE.wb (RE.seqR (strLit "07")
    (RE.seqR (RE.cls isDig) (RE.seqR (RE.cls sepChar)
      (RE.seqR (rngCls isDig 2 3) (RE.seqR (optE (RE.cls sepChar))
        (RE.seqR (rngCls isDig 2 3) (RE.seqR (optE (RE.cls sepChar))
          (RE.seqR (rngCls isDig 2 4) RE.wb))))))))

/-- Phone pattern 4 (line 120): regex -\d{4}\b (a hyphen then four digits). -/
def phone4Pat : RE :=
  RE.seqR (chrE '-') (RE.seqR (repCls isDig 4) RE.wb)

/-- Phone pattern 5 (line 121): regex \b\d{2,3}[- ]\d{2,3}[- ]\d{2,4}\b. -/
def phone5Pat : RE :=
  RE.seqR RE.wb (RE.seqR (rngCls isDig 2 3) (RE.seqR (RE.cls sepChar)
    (RE.seqR (rngCls isDig 2 3) (RE.seqR (RE.cls sepChar)
      (RE.seqR (rngCls isDig 2 4) RE.wb)))))

/-- Long-number pattern of mask_text_normal (line 128): regex \b\d{11,}\b. -/
def longNumMaskPat : RE :=
  RE.seqR RE.wb (RE.seqR (repCls isDig 11)
    (RE.seqR (RE.starCls isDig) RE.wb))

/-- ID-label pattern 1 (line 141, IGNORECASE): regex Dok\.Id\s+\d+. -/
def idPat1 : RE :=
  RE.seqR (strLitCI "Dok") (RE.seqR (chrE '.')
    (RE.seqR (strLitCI "Id") (RE.seqR (plusCls pySpace) (plusCls isDig))))

/-- ID-label pattern 2 (line 142, IGNORECASE): regex ID:\s*\d+. -/
def idPat2 : RE :=
  RE.seqR (strLitCI "ID:") (RE.seqR (RE.starCls pySpace) (plusCls isDig))

/-- ID-label pattern 3 (line 143, IGNORECASE): regex Id:\s*\d+. -/
def idPat3 : RE :=
  RE.seqR (strLitCI "Id:") (RE.seqR (RE.starCls pySpace) (plusCls isDig))

/-- ID-label pattern 4 (line 144, IGNORECASE): regex \bID\s+\d+. -/
def idPat4 : RE :=
  RE.seqR RE.wb (RE.seqR (strLitCI "ID")
    (RE.seqR (plusCls pySpace) (plusCls isDig)))

def idLabelPats : List RE := [idPat1, idPat2, idPat3, idPat4]

/-- The date shape of the digit-cluster negative lookahead (line 167):
regex (?:19|20)\d{2}[- ]\d{2}[- ]\d{2}. -/
def dateLApat : RE :=
  RE.seqR pfx1920 (RE.seqR (repCls isDig 2) (RE.seqR (RE.cls sepChar)
    (RE.seqR (repCls isDig 2) (RE.seqR (RE.cls sepChar) (repCls isDig 2)))))

/-- The character class of the second lookahead of the digit-cluster pattern
(line 167): the set of characters occurring in
[\[PHONE\]\[EMAIL\]\[REDACTED\]\[ID\]\[NUM\]]. -/
def tokCharClass (c : Char) : Bool :=
  c = '[' || c = ']' || c = 'P' || c = 'H' || c = 'O' || c = 'N' ||
    c = 'E' || c = 'A' || c = 'I' || c = 'L' || c = 'R' || c = 'D' ||
    c = 'C' || c = 'T' || c = 'U' || c = 'M'

/-- Digit-cluster pattern of mask_text_strict (line 167): regex
\b(?!(?:19|20)\d{2}[- ]\d{2}[- ]\d{2})(?![class])\d{1,4}(?:[- ]\d{1,4}){1,4}\b. -/
def clusterPat : RE :=
  RE.seqR RE.wb (RE.seqR (RE.nla dateLApat)
    (RE.seqR (RE.nla (RE.cls tokCharClass))
      (RE.seqR (rngCls isDig 1 4)
        (RE.seqR (RE.seqR (RE.seqR (RE.cls sepChar) (rngCls isDig 1 4))
          (upToR (RE.seqR (RE.cls sepChar) (rngCls isDig 1 4)) 3)) RE.wb))))

/-- Standalone-digit pattern of mask_text_strict (line 182): regex \b\d{5,}\b. -/
def standalonePat : RE :=
  RE.seqR RE.wb (RE.seqR (repCls isDig 5)
    (RE.seqR (RE.starCls isDig) RE.wb))

/-- URL pattern of mask_text_paranoid (line 195, IGNORECASE): regex
https?://[^\s]+. -/
def urlPat : RE :=
  RE.seqR (strLitCI "http") (RE.seqR (optE (chrCI 's'))
    (RE.seqR (strLit "://") (plusCls nonSpace)))

/-! ## Helper string functions -/

/-- Does `p` occur at the start of `t`? -/
def startsList : List Char → List Char → Bool
  | [], _ => true
  | _ :: _, [] => false
  | a :: as2, b :: bs => a = b && startsList as2 bs

/-- Does `p` occur contiguously anywhere inside `t`? (Python `p in t`.) -/
def occursIn (p : List Char) : List Char → Bool
  | [] => startsList p []
  | c :: rest => startsList p (c :: rest) || occursIn p rest

/-- Number of digit characters (Python len(re.sub(r'\D', '', s))). -/
def digitCount (l : List Char) : Nat := (l.filter isDig).length

/-- The replacement callback mask_digit_cluster of mask_text_strict
(lines 153-162). -/
def clusterRepl (m : List Char) : List Char :=
  if ["[PHONE]", "[EMAIL]", "[REDACTED]", "[ID]", "[NUM]"].any
      (fun t => occursIn t.data m) then m
  else if 5 ≤ digitCount m then "[NUM]".data
  else m

/-! ## normalize_text (text_processing.py lines 69-85) -/

/-- Python text.replace of a CRLF pair by a newline (left-to-right,
non-overlapping). -/
def replCRLF : List Char → List Char
  | [] => []
  | [c] => [c]
  | c :: d :: rest =>
    if c = '\r' && d = '\n' then '\n' :: replCRLF rest
    else c :: replCRLF (d :: rest)

/-- Python text.replace of a carriage return by a newline. -/
def mapCRtoNl (l : List Char) : List Char :=
  l.map (fun c => if c = '\r' then '\n' else c)

/-- re.sub collapsing runs of three or more newlines to exactly two
(line 79).  The counter records how many newlines of the current run have
already been emitted. -/
def collapseNl : Nat → List Char → List Char
  | _, [] => []
  | n, c :: rest =>
    if c = '\n' then
      if 2 ≤ n then collapseNl n rest
      else c :: collapseNl (n + 1) rest
    else c :: collapseNl 0 rest

/-- Python line.rstrip(). -/
def rstripL (l : List Char) : List Char :=
  (l.reverse.dropWhile pySpace).reverse

/-- Python s.lstrip(). -/
def lstripL (l : List Char) : List Char := l.dropWhile pySpace

/-- Python s.strip(). -/
def stripWS (l : List Char) : List Char := rstripL (lstripL l)

/-- Python s.split of a string on newlines. -/
def splitNl : List Char → List (List Char)
  | [] => [[]]
  | c :: rest =>
    if c = '\n' then [] :: splitNl rest
    else
      match splitNl rest with
      | [] => [[c]]
      | l :: ls => (c :: l) :: ls

/-- Python newline.join. -/
def joinNl : List (List Char) → List Char
  | [] => []
  | [l] => l
  | l :: ls => l ++ '\n' :: joinNl ls

/-- normalize_text (lines 69-85): unify line endings, collapse blank runs,
strip trailing whitespace per line, strip the ends. -/
def normalize_text (s : String) : String :=
  let t1 := mapCRtoNl (replCRLF s.data)
  let t2 := collapseNl 0 t1
  let t3 := joinNl ((splitNl t2).map rstripL)
  ⟨stripWS t3⟩

/-! ## Masking functions (text_processing.py lines 88-224) -/

/-- mask_text_normal (lines 105-131). -/
def mask_text_normal (s : String) : String :=
  let t1 := subAll emailMaskPat (fun _ => "[EMAIL]".data) s.data
  let t2 := subAll pnrMaskPat (fun _ => "[REDACTED]".data) t1
  let t3 := [phone1Pat, phone2Pat, phone3Pat, phone4Pat, phone5Pat].foldl
    (fun t p => subAll p (fun _ => "[PHONE]".data) t) t2
  let t4 := subAll longNumMaskPat (fun _ => "[REDACTED]".data) t3
  ⟨t4⟩

/-- mask_text_strict (lines 134-185). -/
def mask_text_strict (s : String) : String :=
  let t0 := (mask_text_normal s).data
  let t1 := idLabelPats.foldl
    (fun t p => subAll p (fun _ => "[ID]".data) t) t0
  let t2 := subAll clusterPat clusterRepl t1
  let t3 := subAll standalonePat (fun _ => "[NUM]".data) t2
  ⟨t3⟩

/-- A name-label rule of mask_text_paranoid (lines 206-212): the re.match
pattern and the literal replacement.  Matching the whole line, the
substitution yields exactly the replacement text. -/
structure LabelRule where
  pat : RE
  canon : List Char

def mkLabelRule (lbl canonStr : String) : LabelRule :=
  ⟨RE.seqR (strLitCI lbl) (RE.seqR (plusCls pySpace) (plusCls anyNotNl)),
    canonStr.data⟩

/-- The ordered name-label rules (lines 206-212), each pattern
^Label\s+(.+) with IGNORECASE and replacement Label [NAME]. -/
def labelRules : List LabelRule :=
  [ mkLabelRule "Sökande" "Sökande [NAME]"
  , mkLabelRule "Motpart" "Motpart [NAME]"
  , mkLabelRule "Ombud" "Ombud [NAME]"
  , mkLabelRule "RÄTTEN" "RÄTTEN [NAME]"
  , mkLabelRule "Rådmannen" "Rådmannen [NAME]" ]

/-- Per-line label masking of mask_text_paranoid (lines 214-220): the first
matching rule replaces the whole line. -/
def labelLine (l : List Char) : List Char :=
  match labelRules.find? (fun rule => reMatchB rule.pat l) with
  | some rule => rule.canon
  | none => l

/-- mask_text_paranoid (lines 188-224). -/
def mask_text_paranoid (s : String) : String :=
  let t1 := subAll emailMaskPat (fun _ => "[LINK]".data) s.data
  let t2 := subAll urlPat (fun _ => "[LINK]".data) t1
  let t3 := subAll (RE.cls isDig) (fun _ => "[NUM]".data) t2
  ⟨joinNl ((splitNl t3).map labelLine)⟩

/-- mask_text (lines 88-102): level dispatch; any level other than paranoid
or strict falls through to normal masking. -/
def mask_text (s : String) (level : String) : String :=
  if level = "paranoid" then mask_text_paranoid s
  else if level = "strict" then mask_text_strict s
  else mask_text_normal s

/-! ## pii_gate_check (text_processing.py lines 227-355) -/

/-- The allowed-token literals of the gate (lines 246-255), in order. -/
def allowedTokenStrings : List String :=
  ["[PHONE]", "[EMAIL]", "[PERSONNUMMER]", "[ID]", "[REDACTED]",
   "[NUM]", "[LINK]", "[NAME]"]

/-- Step 1 of the gate (lines 257-260): replace every allowed token
(IGNORECASE) by the neutral placeholder. -/
def tokenSanitize (t : List Char) : List Char :=
  allowedTokenStrings.foldl
    (fun s tok => subAll (strLitCI tok) (fun _ => "[TOKEN]".data) s) t

/-- Gate personnummer pattern 3 (line 267): regex \b\d{6}[- ]\d{4}\b. -/
def pnrG3 : RE :=
  RE.seqR RE.wb (RE.seqR (repCls isDig 6)
    (RE.seqR (RE.cls sepChar) (RE.seqR (repCls isDig 4) RE.wb)))

/-- Gate personnummer pattern 4 (line 268): regex \b\d{10}\b. -/
def pnrG4 : RE :=
  RE.seqR RE.wb (RE.seqR (repCls isDig 10) RE.wb)

/-- The gate's personnummer patterns (lines 264-269): the two dated shapes
of the masker plus the bare 6+4 and 10-digit shapes. -/
def gatePnrPats : List RE :=
  [ RE.seqR RE.wb (RE.seqR pfx1920 (RE.seqR (repCls isDig 6)
      (RE.seqR (RE.cls sepChar) (RE.seqR (repCls isDig 4) RE.wb))))
  , RE.seqR RE.wb (RE.seqR pfx1920 (RE.seqR (repCls isDig 10) RE.wb))
  , pnrG3
  , pnrG4 ]

/-- Month alternative (0[1-9]|1[0-2]) of the birthdate pattern. -/
def monthAlt : RE :=
  RE.altR
    (RE.seqR (chrE '0') (RE.cls (fun c => '1' ≤ c && c ≤ '9')))
    (RE.seqR (chrE '1') (RE.cls (fun c => '0' ≤ c && c ≤ '2')))

/-- Day alternative (0[1-9]|[12]\d|3[01]) of the birthdate pattern. -/
def dayAlt : RE :=
  RE.altR
    (RE.seqR (chrE '0') (RE.cls (fun c => '1' ≤ c && c ≤ '9')))
    (RE.altR
      (RE.seqR (RE.cls (fun c => c = '1' || c = '2')) (RE.cls isDig))
      (RE.seqR (chrE '3') (RE.cls (fun c => c = '0' || c = '1'))))

/-- Birthdate pattern of the gate (line 281): regex
\b(19|20)\d{2}(0[1-9]|1[0-2])(0[1-9]|[12]\d|3[01])\b. -/
def bdPat : RE :=
  RE.seqR RE.wb (RE.seqR pfx1920 (RE.seqR (repCls isDig 2)
    (RE.seqR monthAlt (RE.seqR dayAlt RE.wb))))

/-- Date shape searched in the birthdate context window (line 293): regex
\d{4}-\d{2}-\d{2}. -/
def dateShapePat : RE :=
  RE.seqR (repCls isDig 4) (RE.seqR (chrE '-')
    (RE.seqR (repCls isDig 2) (RE.seqR (chrE '-') (repCls isDig 2))))

/-- Gate email pattern (line 299): regex [\w\.-]+@[\w\.-]+\.\w+
(no word boundaries, unlike the masker's). -/
def emailGatePat : RE :=
  RE.seqR (plusCls wdd) (RE.seqR (chrE '@')
    (RE.seqR (plusCls wdd) (RE.seqR (chrE '.') (plusCls wordChar))))

/-- The gate's phone patterns (lines 307-314): textually identical to the
masker's first three phone regexes. -/
def gatePhonePats : List RE := [phone1Pat, phone2Pat, phone3Pat]

/-- The full-date shape skipped by the gate's phone check (line 323):
regex ^(19|20)\d{2}-\d{2}-\d{2}$. -/
def fullDatePat : RE :=
  RE.seqR pfx1920 (RE.seqR (repCls isDig 2) (RE.seqR (chrE '-')
    (RE.seqR (repCls isDig 2) (RE.seqR (chrE '-') (repCls isDig 2)))))

/-- Gate long-number pattern (line 349): regex \b\d{9,}\b. -/
def longGatePat : RE :=
  RE.seqR RE.wb (RE.seqR (repCls isDig 9)
    (RE.seqR (RE.starCls isDig) RE.wb))

/-- The slice sanitized[a:b]. -/
def ctxSlice (s : List Char) (a b : Nat) : List Char :=
  (s.drop a).take (b - a)

/-- Is a \d{4}-\d{2}-\d{2} shape present within 20 characters of the match
(i, m)?  (lines 287-293; Nat subtraction models max(0, start-20)). -/
def dateNearby (s : List Char) (im : Nat × List Char) : Bool :=
  (searchSk dateShapePat []
    (ctxSlice s (im.fst - 20) (min s.length (im.fst + im.snd.length + 20)))).isSome

/-- Step 3 of the gate (lines 277-296): a birthdate-like reason fires when
some compact-date match has no hyphenated date shape nearby. -/
def bdTriggered (s : List Char) : Bool :=
  match searchSk bdPat [] s with
  | none => false
  | some _ => (findIter bdPat s).any (fun im => !dateNearby s im)

/-- Step 5 of the gate for one phone pattern (lines 316-331): some match
that is not itself a full date and has at least 7 digits. -/
def phoneTriggers (s : List Char) (p : RE) : Bool :=
  (findIter p s).any (fun im =>
    !fullMatch fullDatePat im.snd && 7 ≤ digitCount im.snd)

/-- pii_gate_check (lines 227-355): deterministic PII gate on already-masked
text; returns (is_safe, reasons). -/
def pii_gate_check (t : String) : Bool × List String :=
  let sanitized := tokenSanitize t.data
  let pnr := gatePnrPats.any (fun p => reSearch p sanitized)
  let bd := bdTriggered sanitized
  let em := reSearch emailGatePat sanitized
  let ph := gatePhonePats.any (fun p => phoneTriggers sanitized p)
  let idd := idLabelPats.any (fun p => reSearch p sanitized)
  let lng := reSearch longGatePat sanitized
  let reasons :=
    (if pnr then ["personnummer_detected"] else []) ++
    (if bd then ["birthdate_like_sequence_detected"] else []) ++
    (if em then ["email_detected"] else []) ++
    (if ph then ["phone_detected"] else []) ++
    (if idd then ["unmasked_id_detected"] else []) ++
    (if lng then ["long_number_detected"] else [])
  (reasons.isEmpty, reasons)

/-- All pattern matches underlying the gate's reason checks, found on the
token-sanitized text: every reported reason's matched span is one of
these. -/
def gateReasonMatches (t : String) : List (List Char) :=
  let s := tokenSanitize t.data
  (gatePnrPats.flatMap (fun p => (findIter p s).map Prod.snd)) ++
  ((findIter bdPat s).map Prod.snd) ++
  ((findIter emailGatePat s).map Prod.snd) ++
  (gatePhonePats.flatMap (fun p => (findIter p s).map Prod.snd)) ++
  (idLabelPats.flatMap (fun p => (findIter p s).map Prod.snd)) ++
  ((findIter longGatePat s).map Prod.snd)

/-! ## Ingestion call sites (apps/api/main.py)

The three ingestion sites run the same progressive pipeline but handle a
paranoid-level gate failure differently; we model the sanitization and what
each site persists. -/

inductive SanitizeLevel : Type where
  | normal
  | strict
  | paranoid
deriving DecidableEq, Repr

/-- The fields each call site persists from the sanitization pipeline. -/
structure SanResult where
  maskedText : String
  levelUsed : SanitizeLevel
  aiAllowed : Bool
  exportAllowed : Bool
  reasonsNormal : Option (List String)
  reasonsStrict : Option (List String)
deriving DecidableEq, Repr

/-- The progressive sanitization of upload_document (main.py lines 484-521),
on already-normalized text: try normal, then strict, then paranoid; a
paranoid-level gate failure aborts with an internal error (HTTP 500) and
nothing is persisted. -/
def sanitizePipeline (t : String) : Except String SanResult :=
  let mn := mask_text t "normal"
  let gn := pii_gate_check mn
  if gn.fst then
    Except.ok ⟨mn, SanitizeLevel.normal, true, true, none, none⟩
  else
    let ms := mask_text t "strict"
    let gs := pii_gate_check ms
    if gs.fst then
      Except.ok ⟨ms, SanitizeLevel.strict, true, true, some gn.snd, none⟩
    else
      let mp := mask_text t "paranoid"
      let gp := pii_gate_check mp
      if gp.fst then
        Except.ok
          ⟨mp, SanitizeLevel.paranoid, false, false, some gn.snd, some gs.snd⟩
      else
        Except.error
          "Internal error: Paranoid masking failed PII gate check. This is a bug."

/-- Document upload (main.py lines 481-521): normalization followed by the
progressive pipeline. -/
def uploadDocumentSanitize (raw : String) : Except String SanResult :=
  sanitizePipeline (normalize_text raw)

/-- Note creation (main.py lines 925-997): the same pipeline except that the
paranoid branch performs no gate check at all — the note is always
persisted. -/
def createNoteSanitize (body : String) : SanResult :=
  let t := normalize_text body
  let mn := mask_text t "normal"
  let gn := pii_gate_check mn
  if gn.fst then ⟨mn, SanitizeLevel.normal, true, true, none, none⟩
  else
    let ms := mask_text t "strict"
    let gs := pii_gate_check ms
    if gs.fst then ⟨ms, SanitizeLevel.strict, true, true, some gn.snd, none⟩
    else
      let mp := mask_text t "paranoid"
      ⟨mp, SanitizeLevel.paranoid, false, false, some gn.snd, some gs.snd⟩

/-- Feed-item import (main.py lines 1857-1900): the same pipeline, but a
paranoid-level gate failure only logs and skips the item (continue);
`none` models the skipped item, with the surrounding import proceeding. -/
def feedItemSanitize (raw : String) : Option SanResult :=
  match sanitizePipeline (normalize_text raw) with
  | Except.ok r => some r
  | Except.error _ => none

/-! ## Auxiliary definitions for the claims -/

/-- Does one of isDigit or a literal at-sign hold?  Every reason pattern of
the gate requires such a character. -/
def qChar (c : Char) : Bool := c.isDigit || c = '@'

/-- Characters required by some masking pattern: digits, the at-sign of the
email patterns, the colon of the URL pattern. -/
def qMask (c : Char) : Bool := c.isDigit || c = '@' || c = ':'

/-- Toggle the case of an ASCII or Swedish letter. -/
def swapCase (c : Char) : Char :=
  if c = 'å' then 'Å' else if c = 'Å' then 'å'
  else if c = 'ä' then 'Ä' else if c = 'Ä' then 'ä'
  else if c = 'ö' then 'Ö' else if c = 'Ö' then 'ö'
  else if c = 'é' then 'É' else if c = 'É' then 'é'
  else if c.isLower then c.toUpper
  else if c.isUpper then c.toLower
  else c

/-- Apply a letter-case toggle mask: position i is case-flipped when the
i-th flag is true.  The case variants of s are exactly the values
applyCase bs s. -/
def applyCase : List Bool → List Char → List Char
  | _, [] => []
  | [], l => l
  | b :: bs, c :: cs => (if b then swapCase c else c) :: applyCase bs cs

/-- The stored sanitize level of a pipeline outcome, if any. -/
def levelOf : Except String SanResult → Option SanitizeLevel
  | Except.ok r => some r.levelUsed
  | Except.error _ => none

/-- The persisted record of a pipeline outcome, if any. -/
def recordOf : Except String SanResult → Option SanResult
  | Except.ok r => some r
  | Except.error _ => none

/-- The fatal error message of a pipeline outcome, if any. -/
def errOf : Except String SanResult → Option String
  | Except.ok _ => none
  | Except.error e => some e

/-- Number of leading newline characters. -/
def leadNl : List Char → Nat
  | [] => 0
  | c :: rest => if c = '\n' then leadNl rest + 1 else 0

/-- Does the text contain three consecutive newlines? -/
def hasTriple : List Char → Bool
  | [] => false
  | c :: rest => (c = '\n' && 2 ≤ leadNl rest) || hasTriple rest

/-- The line carries no trailing whitespace (it is unchanged by rstrip). -/
def noTrailWS (l : List Char) : Bool :=
  match l.reverse with
  | [] => true
  | c :: _ => !pySpace c

/-- A pattern requires a `q`-character: every string it can match contains a
character satisfying `q`.  Established syntactically: a class all of whose
members satisfy `q`, a sequence one of whose parts requires one, or an
alternation both of whose branches do. -/
inductive ReqChar (q : Char → Bool) : RE → Prop where
  | cls {p : Char → Bool} (h : ∀ c, p c = true → q c = true) :
      ReqChar q (RE.cls p)
  | seqL {r1 r2 : RE} (h : ReqChar q r1) : ReqChar q (RE.seqR r1 r2)
  | seqRt {r1 r2 : RE} (h : ReqChar q r2) : ReqChar q (RE.seqR r1 r2)
  | alt {r1 r2 : RE} (h1 : ReqChar q r1) (h2 : ReqChar q r2) :
      ReqChar q (RE.altR r1 r2)

/-! # Lemmas -/

/-! ## Factorization through the continuation -/

theorem starLoop_factor {α : Type} (p : Char → Bool) :
    ∀ (rest crev : List Char) (k : List Char → List Char → Option α) (x : α),
      starLoop p crev rest k = some x →
      ∃ d rest2, rest = d ++ rest2 ∧ k (d.reverse ++ crev) rest2 = some x := by
  intro rest
  induction rest with
  | nil =>
    intro crev k x h
    exact ⟨[], [], rfl, h⟩
  | cons c rs ih =>
    intro crev k x h
    simp only [starLoop] at h
    by_cases hp : p c
    · rw [if_pos hp] at h
      cases hs : starLoop p (c :: crev) rs k with
      | some y =>
        rw [hs] at h
        obtain ⟨d, rest2, hd, hk⟩ := ih (c :: crev) k x (hs.trans h)
        refine ⟨c :: d, rest2, by simp [hd], ?_⟩
        simpa [List.reverse_cons, List.append_assoc] using hk
      | none =>
        rw [hs] at h
        exact ⟨[], c :: rs, rfl, h⟩
    · rw [if_neg hp] at h
      exact ⟨[], c :: rs, rfl, h⟩

theorem mCont_factor {α : Type} :
    ∀ (r : RE) (pre crev rest : List Char)
      (k : List Char → List Char → Option α) (x : α),
      mCont r pre crev rest k = some x →
      ∃ d rest2, rest = d ++ rest2 ∧ k (d.reverse ++ crev) rest2 = some x := by
  intro r
  induction r with
  | cls p =>
    intro pre crev rest k x h
    cases rest with
    | nil => simp [mCont] at h
    | cons c rs =>
      simp only [mCont] at h
      by_cases hp : p c
      · rw [if_pos hp] at h
        exact ⟨[c], rs, rfl, h⟩
      · rw [if_neg hp] at h
        exact absurd h (by simp)
  | epsR =>
    intro pre crev rest k x h
    exact ⟨[], rest, rfl, h⟩
  | seqR r1 r2 ih1 ih2 =>
    intro pre crev rest k x h
    simp only [mCont] at h
    obtain ⟨d1, rest1, hd1, hk1⟩ := ih1 pre crev rest _ x h
    obtain ⟨d2, rest2, hd2, hk2⟩ := ih2 pre (d1.reverse ++ crev) rest1 k x hk1
    refine ⟨d1 ++ d2, rest2, by simp [hd1, hd2], ?_⟩
    simpa [List.reverse_append, List.append_assoc] using hk2
  | altR r1 r2 ih1 ih2 =>
    intro pre crev rest k x h
    simp only [mCont] at h
    cases h1 : mCont r1 pre crev rest k with
    | some y =>
      rw [h1] at h
      exact h ▸ ih1 pre crev rest k x (h1.trans h)
    | none =>
      rw [h1] at h
      exact ih2 pre crev rest k x h
  | starCls p =>
    intro pre crev rest k x h
    exact starLoop_factor p rest crev k x h
  | wb =>
    intro pre crev rest k x h
    simp only [mCont] at h
    by_cases hw : wbHolds crev pre rest
    · rw [if_pos hw] at h
      exact ⟨[], rest, rfl, h⟩
    · rw [if_neg hw] at h
      exact absurd h (by simp)
  | nla r ih =>
    intro pre crev rest k x h
    simp only [mCont] at h
    cases hi : mCont (α := List Char × List Char) r pre crev rest
        (fun c2 r2 => some (c2, r2)) with
    | some y => rw [hi] at h; exact absurd h (by simp)
    | none => rw [hi] at h; exact ⟨[], rest, rfl, h⟩

theorem matchAt_decomp {r : RE} {pre s m rest : List Char}
    (h : matchAt r pre s = some (m, rest)) : s = m ++ rest := by
  obtain ⟨d, rest2, hd, hk⟩ := mCont_factor r pre [] s _ _ h
  simp only [List.append_nil, Option.some.injEq, Prod.mk.injEq] at hk
  obtain ⟨hm, hr⟩ := hk
  rw [hd, ← hm, ← hr, List.reverse_reverse]

theorem searchSk_decomp {r : RE} :
    ∀ {pre s sk m rest : List Char},
      searchSk r pre s = some (sk, m, rest) → s = sk ++ m ++ rest := by
  intro pre s
  induction s generalizing pre with
  | nil =>
    intro sk m rest h
    simp only [searchSk] at h
    cases hm : matchAt r pre [] with
    | some v =>
      obtain ⟨m0, rest0⟩ := v
      rw [hm] at h
      simp only [Option.some.injEq, Prod.mk.injEq] at h
      obtain ⟨h1, h2, h3⟩ := h
      subst h1; subst h2; subst h3
      simpa using matchAt_decomp hm
    | none =>
      rw [hm] at h
      exact absurd h (by simp)
  | cons c rs ih =>
    intro sk m rest h
    simp only [searchSk] at h
    cases hm : matchAt r pre (c :: rs) with
    | some v =>
      obtain ⟨m0, rest0⟩ := v
      rw [hm] at h
      simp only [Option.some.injEq, Prod.mk.injEq] at h
      obtain ⟨h1, h2, h3⟩ := h
      subst h1; subst h2; subst h3
      simpa using matchAt_decomp hm
    | none =>
      rw [hm] at h
      cases hs : searchSk r (c :: pre) rs with
      | some w =>
        obtain ⟨sk0, m0, rest0⟩ := w
        rw [hs] at h
        simp only [Option.some.injEq, Prod.mk.injEq] at h
        obtain ⟨h1, h2, h3⟩ := h
        subst h1; subst h2; subst h3
        simp [ih hs]
      | none =>
        rw [hs] at h
        exact absurd h (by simp)

/-! ## Required-character soundness -/

theorem mCont_req {α : Type} {q : Char → Bool} :
    ∀ {r : RE}, ReqChar q r →
      ∀ (pre crev rest : List Char) (k : List Char → List Char → Option α)
        (x : α),
        mCont r pre crev rest k = some x →
        ∃ d rest2, rest = d ++ rest2 ∧
          k (d.reverse ++ crev) rest2 = some x ∧ d.any q = true := by
  intro r hr
  induction hr with
  | @cls p hpq =>
    intro pre crev rest k x h
    cases rest with
    | nil => simp [mCont] at h
    | cons c rs =>
      simp only [mCont] at h
      by_cases hp : p c
      · rw [if_pos hp] at h
        exact ⟨[c], rs, rfl, h, by simp [hpq c hp]⟩
      · rw [if_neg hp] at h
        exact absurd h (by simp)
  | @seqL r1 r2 h1 ih =>
    intro pre crev rest k x h
    simp only [mCont] at h
    obtain ⟨d1, rest1, hd1, hk1, hq1⟩ := ih pre crev rest _ x h
    obtain ⟨d2, rest2, hd2, hk2⟩ :=
      mCont_factor r2 pre (d1.reverse ++ crev) rest1 k x hk1
    refine ⟨d1 ++ d2, rest2, by simp [hd1, hd2], ?_, by simp [hq1]⟩
    simpa [List.reverse_append, List.append_assoc] using hk2
  | @seqRt r1 r2 h2 ih =>
    intro pre crev rest k x h
    simp only [mCont] at h
    obtain ⟨d1, rest1, hd1, hk1⟩ := mCont_factor r1 pre crev rest _ x h
    obtain ⟨d2, rest2, hd2, hk2, hq2⟩ :=
      ih pre (d1.reverse ++ crev) rest1 k x hk1
    refine ⟨d1 ++ d2, rest2, by simp [hd1, hd2], ?_, by simp [hq2]⟩
    simpa [List.reverse_append, List.append_assoc] using hk2
  | @alt r1 r2 h1 h2 ih1 ih2 =>
    intro pre crev rest k x h
    simp only [mCont] at h
    cases hc : mCont r1 pre crev rest k with
    | some y =>
      rw [hc] at h
      exact h ▸ ih1 pre crev rest k x (hc.trans h)
    | none =>
      rw [hc] at h
      exact ih2 pre crev rest k x h

theorem matchAt_req {q : Char → Bool} {r : RE} (hr : ReqChar q r)
    {pre s m rest : List Char} (h : matchAt r pre s = some (m, rest)) :
    m.any q = true := by
  obtain ⟨d, rest2, hd, hk, hq⟩ := mCont_req hr pre [] s _ _ h
  simp only [List.append_nil, List.reverse_reverse, Option.some.injEq,
    Prod.mk.injEq] at hk
  obtain ⟨hm, hr2⟩ := hk
  rw [← hm]
  exact hq

theorem searchSk_req {q : Char → Bool} {r : RE} (hr : ReqChar q r) :
    ∀ {pre s sk m rest : List Char},
      searchSk r pre s = some (sk, m, rest) → m.any q = true := by
  intro pre s
  induction s generalizing pre with
  | nil =>
    intro sk m rest h
    simp only [searchSk] at h
    cases hm : matchAt r pre [] with
    | some v =>
      obtain ⟨m0, rest0⟩ := v
      rw [hm] at h
      simp only [Option.some.injEq, Prod.mk.injEq] at h
      obtain ⟨h1, h2, h3⟩ := h
      subst h2; subst h3
      exact matchAt_req hr hm
    | none =>
      rw [hm] at h
      exact absurd h (by simp)
  | cons c rs ih =>
    intro sk m rest h
    simp only [searchSk] at h
    cases hm : matchAt r pre (c :: rs) with
    | some v =>
      obtain ⟨m0, rest0⟩ := v
      rw [hm] at h
      simp only [Option.some.injEq, Prod.mk.injEq] at h
      obtain ⟨h1, h2, h3⟩ := h
      subst h2; subst h3
      exact matchAt_req hr hm
    | none =>
      rw [hm] at h
      cases hs : searchSk r (c :: pre) rs with
      | some w =>
        obtain ⟨sk0, m0, rest0⟩ := w
        rw [hs] at h
        simp only [Option.some.injEq, Prod.mk.injEq] at h
        obtain ⟨h1, h2, h3⟩ := h
        subst h2; subst h3
        exact ih hs
      | none =>
        rw [hs] at h
        exact absurd h (by simp)

/-- A pattern that requires a `q`-character finds no match in `q`-free
text. -/
theorem searchSk_none_of_req {q : Char → Bool} {r : RE} (hr : ReqChar q r)
    {pre s : List Char} (hs : ∀ c ∈ s, q c = false) :
    searchSk r pre s = none := by
  cases h : searchSk r pre s with
  | none => rfl
  | some v =>
    obtain ⟨sk, m, rest⟩ := v
    have hq := searchSk_req hr h
    have hdec := searchSk_decomp h
    obtain ⟨c, hc, hqc⟩ := List.any_eq_true.mp hq
    have : c ∈ s := by
      rw [hdec]
      simp [hc]
    rw [hs c this] at hqc
    exact absurd hqc (by simp)

/-! ## Corollaries for subAll and findIter -/

theorem subAll_id_of_none {r : RE} {f : List Char → List Char}
    {s : List Char} (h : searchSk r [] s = none) : subAll r f s = s := by
  have : s.length + 1 = Nat.succ s.length := rfl
  rw [subAll, this]
  simp only [subAllF, h]

theorem subAll_id_of_req {q : Char → Bool} {r : RE} (hr : ReqChar q r)
    {f : List Char → List Char} {s : List Char}
    (hs : ∀ c ∈ s, q c = false) : subAll r f s = s :=
  subAll_id_of_none (searchSk_none_of_req hr hs)

theorem findIter_nil_of_none {r : RE} {s : List Char}
    (h : searchSk r [] s = none) : findIter r s = [] := by
  have : s.length + 1 = Nat.succ s.length := rfl
  rw [findIter, this]
  simp only [findIterF, h]

theorem findIterF_mem_req {q : Char → Bool} {r : RE} (hr : ReqChar q r) :
    ∀ (fuel : Nat) (pre s : List Char) (pos : Nat) (im : Nat × List Char),
      im ∈ findIterF r fuel pre s pos → im.snd.any q = true := by
  intro fuel
  induction fuel with
  | zero =>
    intro pre s pos im h
    simp [findIterF] at h
  | succ fuel ih =>
    intro pre s pos im h
    simp only [findIterF] at h
    cases hs : searchSk r pre s with
    | none =>
      rw [hs] at h
      simp at h
    | some v =>
      obtain ⟨sk, m, rest⟩ := v
      rw [hs] at h
      have hq := searchSk_req hr hs
      cases m with
      | nil => simp at hq
      | cons c ms =>
        simp only [List.mem_cons] at h
        cases h with
        | inl he => rw [he]; exact hq
        | inr hmem => exact ih _ _ _ im hmem

theorem findIter_mem_req {q : Char → Bool} {r : RE} (hr : ReqChar q r)
    {s : List Char} {im : Nat × List Char} (h : im ∈ findIter r s) :
    im.snd.any q = true :=
  findIterF_mem_req hr _ _ _ _ im h

/-! ## ReqChar facts for the source patterns -/

theorem req_chrE {q : Char → Bool} {c : Char} (h : q c = true) :
    ReqChar q (chrE c) :=
  ReqChar.cls (fun x hx => by
    simp only [chrE, decide_eq_true_eq] at hx
    subst hx
    exact h)

theorem req_repCls_succ {q p : Char → Bool} (h : ∀ c, p c = true → q c = true)
    (n : Nat) : ReqChar q (repCls p (n + 1)) :=
  ReqChar.seqL (ReqChar.cls h)

theorem req_rngCls_succ {q p : Char → Bool} (h : ∀ c, p c = true → q c = true)
    (m n : Nat) : ReqChar q (rngCls p (m + 1) n) :=
  ReqChar.seqL (req_repCls_succ h m)

theorem req_plusCls {q p : Char → Bool} (h : ∀ c, p c = true → q c = true) :
    ReqChar q (plusCls p) :=
  ReqChar.seqL (ReqChar.cls h)

theorem req_pfx1920 {q : Char → Bool} (h : ∀ c, isDig c = true → q c = true) :
    ReqChar q pfx1920 :=
  ReqChar.alt (ReqChar.seqL (req_chrE (h '1' (by decide))))
    (ReqChar.seqL (req_chrE (h '2' (by decide))))

theorem req_phone1 {q : Char → Bool} (h : ∀ c, isDig c = true → q c = true) :
    ReqChar q phone1Pat :=
  ReqChar.seqRt (ReqChar.seqRt (ReqChar.seqL (req_rngCls_succ h 0 2)))

theorem req_phone2 {q : Char → Bool} (h : ∀ c, isDig c = true → q c = true) :
    ReqChar q phone2Pat :=
  ReqChar.seqRt (ReqChar.seqL (req_chrE (h '0' (by decide))))

theorem req_phone3 {q : Char → Bool} (h : ∀ c, isDig c = true → q c = true) :
    ReqChar q phone3Pat :=
  ReqChar.seqRt (ReqChar.seqL (ReqChar.seqL (req_chrE (h '0' (by decide)))))

theorem req_phone4 {q : Char → Bool} (h : ∀ c, isDig c = true → q c = true) :
    ReqChar q phone4Pat :=
  ReqChar.seqRt (ReqChar.seqL (req_repCls_succ h 3))

theorem req_phone5 {q : Char → Bool} (h : ∀ c, isDig c = true → q c = true) :
    ReqChar q phone5Pat :=
  ReqChar.seqRt (ReqChar.seqL (req_rngCls_succ h 1 3))

theorem req_gatePnr {q : Char → Bool} (h : ∀ c, isDig c = true → q c = true) :
    ∀ p ∈ gatePnrPats, ReqChar q p := by
  intro p hp
  simp only [gatePnrPats, List.mem_cons, List.not_mem_nil, or_false] at hp
  rcases hp with h1 | h2 | h3 | h4
  · subst h1; exact ReqChar.seqRt (ReqChar.seqL (req_pfx1920 h))
  · subst h2; exact ReqChar.seqRt (ReqChar.seqL (req_pfx1920 h))
  · subst h3; exact ReqChar.seqRt (ReqChar.seqL (req_repCls_succ h 5))
  · subst h4; exact ReqChar.seqRt (ReqChar.seqL (req_repCls_succ h 9))

theorem req_bdPat {q : Char → Bool} (h : ∀ c, isDig c = true → q c = true) :
    ReqChar q bdPat :=
  ReqChar.seqRt (ReqChar.seqL (req_pfx1920 h))

theorem req_idPats {q : Char → Bool} (h : ∀ c, isDig c = true → q c = true) :
    ∀ p ∈ idLabelPats, ReqChar q p := by
  intro p hp
  simp only [idLabelPats, List.mem_cons, List.not_mem_nil, or_false] at hp
  rcases hp with h1 | h2 | h3 | h4
  · subst h1
    exact ReqChar.seqRt (ReqChar.seqRt (ReqChar.seqRt (ReqChar.seqRt
      (req_plusCls h))))
  · subst h2; exact ReqChar.seqRt (ReqChar.seqRt (req_plusCls h))
  · subst h3; exact ReqChar.seqRt (ReqChar.seqRt (req_plusCls h))
  · subst h4
    exact ReqChar.seqRt (ReqChar.seqRt (ReqChar.seqRt (req_plusCls h)))

theorem req_longGate {q : Char → Bool} (h : ∀ c, isDig c = true → q c = true) :
    ReqChar q longGatePat :=
  ReqChar.seqRt (ReqChar.seqL (req_repCls_succ h 8))

theorem req_longMask {q : Char → Bool} (h : ∀ c, isDig c = true → q c = true) :
    ReqChar q longNumMaskPat :=
  ReqChar.seqRt (ReqChar.seqL (req_repCls_succ h 10))

theorem req_pnrMask {q : Char → Bool} (h : ∀ c, isDig c = true → q c = true) :
    ReqChar q pnrMaskPat :=
  ReqChar.alt (ReqChar.seqRt (ReqChar.seqL (req_pfx1920 h)))
    (ReqChar.seqRt (ReqChar.seqL (req_pfx1920 h)))

theorem req_cluster {q : Char → Bool} (h : ∀ c, isDig c = true → q c = true) :
    ReqChar q clusterPat :=
  ReqChar.seqRt (ReqChar.seqRt (ReqChar.seqRt (ReqChar.seqL
    (req_rngCls_succ h 0 4))))

theorem req_standalone {q : Char → Bool}
    (h : ∀ c, isDig c = true → q c = true) : ReqChar q standalonePat :=
  ReqChar.seqRt (ReqChar.seqL (req_repCls_succ h 4))

theorem req_emailMask {q : Char → Bool} (h : q '@' = true) :
    ReqChar q emailMaskPat :=
  ReqChar.seqRt (ReqChar.seqRt (ReqChar.seqL (req_chrE h)))

theorem req_emailGate {q : Char → Bool} (h : q '@' = true) :
    ReqChar q emailGatePat :=
  ReqChar.seqRt (ReqChar.seqL (req_chrE h))

theorem req_url {q : Char → Bool} (h : q ':' = true) : ReqChar q urlPat :=
  ReqChar.seqRt (ReqChar.seqRt (ReqChar.seqL (ReqChar.seqL (req_chrE h))))

theorem digit_qChar : ∀ c, isDig c = true → qChar c = true := by
  intro c hc
  simp only [qChar, isDig] at *
  simp [hc]

theorem digit_qMask : ∀ c, isDig c = true → qMask c = true := by
  intro c hc
  simp only [qMask, isDig] at *
  simp [hc]

/-! ## Character preservation through substitution -/

theorem subAllF_pres {r : RE} {f : List Char → List Char} {P : Char → Prop}
    (hf : ∀ m c, c ∈ f m → P c) :
    ∀ (fuel : Nat) (pre s : List Char), (∀ c ∈ s, P c) →
      ∀ c ∈ subAllF r f fuel pre s, P c := by
  intro fuel
  induction fuel with
  | zero =>
    intro pre s hs c hc
    exact hs c hc
  | succ fuel ih =>
    intro pre s hs c hc
    simp only [subAllF] at hc
    cases hsk : searchSk r pre s with
    | none =>
      rw [hsk] at hc
      exact hs c hc
    | some v =>
      obtain ⟨sk, m, rest⟩ := v
      rw [hsk] at hc
      have hdec := searchSk_decomp hsk
      have hsk2 : ∀ c ∈ sk, P c := fun c hcc => hs c (by rw [hdec]; simp [hcc])
      have hrest : ∀ c ∈ rest, P c := fun c hcc => hs c (by rw [hdec]; simp [hcc])
      cases m with
      | nil =>
        cases rest with
        | nil =>
          simp only [List.mem_append] at hc
          rcases hc with hc | hc
          · exact hsk2 c hc
          · exact hf [] c hc
        | cons c2 rs =>
          simp only [List.mem_append, List.mem_cons] at hc
          rcases hc with (hc | hc) | hc | hc
          · exact hsk2 c hc
          · exact hf [] c hc
          · exact hrest c (by rw [hc]; simp)
          · exact ih _ rs (fun d hd => hrest d (by simp [hd])) c hc
      | cons c2 ms =>
        simp only [List.mem_append] at hc
        rcases hc with (hc | hc) | hc
        · exact hsk2 c hc
        · exact hf (c2 :: ms) c hc
        · exact ih _ rest hrest c hc

theorem subAll_pres {r : RE} {f : List Char → List Char} {P : Char → Prop}
    (hf : ∀ m c, c ∈ f m → P c) {s : List Char} (hs : ∀ c ∈ s, P c) :
    ∀ c ∈ subAll r f s, P c :=
  subAllF_pres hf _ [] s hs

theorem tokenSanitize_qfree {t : List Char}
    (h : ∀ c ∈ t, qChar c = false) :
    ∀ c ∈ tokenSanitize t, qChar c = false := by
  have general : ∀ (toks : List String) (u : List Char),
      (∀ c ∈ u, qChar c = false) →
      ∀ c ∈ toks.foldl
        (fun s tok => subAll (strLitCI tok) (fun _ => "[TOKEN]".data) s) u,
        qChar c = false := by
    intro toks
    induction toks with
    | nil =>
      intro u hu c hc
      exact hu c hc
    | cons tok toks ih =>
      intro u hu c hc
      simp only [List.foldl_cons] at hc
      refine ih _ ?_ c hc
      refine subAll_pres ?_ hu
      intro m d hd
      revert hd
      have : ∀ d ∈ "[TOKEN]".data, qChar d = false := by decide
      exact fun hd => this d hd
  exact general allowedTokenStrings t h

/-- The PII gate is silent on text whose token-sanitized form has neither a
digit nor an at-sign: every reason detector requires one. -/
theorem gate_safe_of_qfree {t : String}
    (h : ∀ c ∈ t.data, qChar c = false) : pii_gate_check t = (true, []) := by
  have hs : ∀ c ∈ tokenSanitize t.data, qChar c = false := tokenSanitize_qfree h
  have hpnr : ∀ p ∈ gatePnrPats, searchSk p [] (tokenSanitize t.data) = none :=
    fun p hp => searchSk_none_of_req (req_gatePnr digit_qChar p hp) hs
  have hbd : searchSk bdPat [] (tokenSanitize t.data) = none :=
    searchSk_none_of_req (req_bdPat digit_qChar) hs
  have hem : searchSk emailGatePat [] (tokenSanitize t.data) = none :=
    searchSk_none_of_req (req_emailGate (by decide)) hs
  have hph : ∀ p ∈ gatePhonePats, searchSk p [] (tokenSanitize t.data) = none := by
    intro p hp
    simp only [gatePhonePats, List.mem_cons, List.not_mem_nil, or_false] at hp
    rcases hp with h1 | h2 | h3
    · subst h1; exact searchSk_none_of_req (req_phone1 digit_qChar) hs
    · subst h2; exact searchSk_none_of_req (req_phone2 digit_qChar) hs
    · subst h3; exact searchSk_none_of_req (req_phone3 digit_qChar) hs
  have hid : ∀ p ∈ idLabelPats, searchSk p [] (tokenSanitize t.data) = none :=
    fun p hp => searchSk_none_of_req (req_idPats digit_qChar p hp) hs
  have hlng : searchSk longGatePat [] (tokenSanitize t.data) = none :=
    searchSk_none_of_req (req_longGate digit_qChar) hs
  have e1 : gatePnrPats.any (fun p => reSearch p (tokenSanitize t.data)) = false := by
    simp only [List.any_eq_false]
    intro p hp
    simp [reSearch, hpnr p hp]
  have e2 : bdTriggered (tokenSanitize t.data) = false := by
    unfold bdTriggered
    rw [hbd]
  have e3 : reSearch emailGatePat (tokenSanitize t.data) = false := by
    simp [reSearch, hem]
  have e4 : gatePhonePats.any (fun p => phoneTriggers (tokenSanitize t.data) p) = false := by
    simp only [List.any_eq_false]
    intro p hp
    unfold phoneTriggers
    rw [findIter_nil_of_none (hph p hp)]
    simp
  have e5 : idLabelPats.any (fun p => reSearch p (tokenSanitize t.data)) = false := by
    simp only [List.any_eq_false]
    intro p hp
    simp [reSearch, hid p hp]
  have e6 : reSearch longGatePat (tokenSanitize t.data) = false := by
    simp [reSearch, hlng]
  simp only [pii_gate_check]
  rw [e1, e2, e3, e4, e5, e6]
  simp

/-! ## Case variants of the mask tokens -/

theorem applyCase_mem :
    ∀ (bs : List Bool) (l : List Char) (c : Char), c ∈ applyCase bs l →
      c ∈ l ∨ ∃ d ∈ l, c = swapCase d := by
  intro bs
  induction bs with
  | nil =>
    intro l c hc
    cases l with
    | nil => simp [applyCase] at hc
    | cons d ds => exact Or.inl hc
  | cons b bs ih =>
    intro l c hc
    cases l with
    | nil => simp [applyCase] at hc
    | cons d ds =>
      simp only [applyCase, List.mem_cons] at hc
      rcases hc with hc | hc
      · by_cases hb : b
        · rw [hb] at hc
          simp only [if_pos] at hc
          exact Or.inr ⟨d, by simp, hc⟩
        · simp only [hb] at hc
          simp only [if_neg, Bool.false_eq_true, if_false] at hc
          exact Or.inl (by simp [hc])
      · rcases ih ds c hc with h1 | ⟨e, he, hce⟩
        · exact Or.inl (by simp [h1])
        · exact Or.inr ⟨e, by simp [he], hce⟩

theorem token_chars_qfree :
    ∀ tok ∈ allowedTokenStrings, ∀ d ∈ tok.data,
      qChar d = false ∧ qChar (swapCase d) = false := by decide

/-- Any letter-case variant of an allowed mask token passes the gate with an
empty reason list. -/
theorem gate_safe_on_token_variant {tok : String}
    (htok : tok ∈ allowedTokenStrings) (bs : List Bool) :
    pii_gate_check ⟨applyCase bs tok.data⟩ = (true, []) := by
  apply gate_safe_of_qfree
  intro c hc
  rcases applyCase_mem bs tok.data c hc with h1 | ⟨d, hd, hcd⟩
  · exact (token_chars_qfree tok htok c h1).1
  · rw [hcd]
    exact (token_chars_qfree tok htok d hd).2

/-! ## Every gate reason match carries a digit or an at-sign -/

theorem gateReasonMatches_req {t : String} {m : List Char}
    (h : m ∈ gateReasonMatches t) : m.any qChar = true := by
  simp only [gateReasonMatches, List.mem_append] at h
  rcases h with ((((h | h) | h) | h) | h) | h
  · obtain ⟨p, hp, hm⟩ := List.mem_flatMap.mp h
    obtain ⟨im, him, heq⟩ := List.mem_map.mp hm
    exact heq ▸ findIter_mem_req (req_gatePnr digit_qChar p hp) him
  · obtain ⟨im, him, heq⟩ := List.mem_map.mp h
    exact heq ▸ findIter_mem_req (req_bdPat digit_qChar) him
  · obtain ⟨im, him, heq⟩ := List.mem_map.mp h
    exact heq ▸ findIter_mem_req (req_emailGate (by decide)) him
  · obtain ⟨p, hp, hm⟩ := List.mem_flatMap.mp h
    obtain ⟨im, him, heq⟩ := List.mem_map.mp hm
    have hreq : ReqChar qChar p := by
      simp only [gatePhonePats, List.mem_cons, List.not_mem_nil, or_false] at hp
      rcases hp with h1 | h2 | h3
      · subst h1; exact req_phone1 digit_qChar
      · subst h2; exact req_phone2 digit_qChar
      · subst h3; exact req_phone3 digit_qChar
    exact heq ▸ findIter_mem_req hreq him
  · obtain ⟨p, hp, hm⟩ := List.mem_flatMap.mp h
    obtain ⟨im, him, heq⟩ := List.mem_map.mp hm
    exact heq ▸ findIter_mem_req (req_idPats digit_qChar p hp) him
  · obtain ⟨im, him, heq⟩ := List.mem_map.mp h
    exact heq ▸ findIter_mem_req (req_longGate digit_qChar) him

/-! ## The birthdate detector, characterized -/

theorem bdTriggered_iff {s : List Char} :
    bdTriggered s = true ↔
      ∃ im ∈ findIter bdPat s, dateNearby s im = false := by
  unfold bdTriggered
  cases h : searchSk bdPat [] s with
  | none =>
    rw [findIter_nil_of_none h]
    simp
  | some v =>
    rw [List.any_eq_true]
    constructor
    · rintro ⟨im, him, him2⟩
      exact ⟨im, him, by simpa using him2⟩
    · rintro ⟨im, him, him2⟩
      exact ⟨im, him, by simpa using him2⟩

theorem mem_if_singleton {a x : String} {b : Bool} :
    (a ∈ if b then [x] else ([] : List String)) ↔ (b = true ∧ a = x) := by
  by_cases hb : b <;> simp [hb]

/-- The birthdate reason appears in the gate verdict exactly when the
birthdate detector fires on the token-sanitized text. -/
theorem bd_reason_iff {t : String} :
    ("birthdate_like_sequence_detected" ∈ (pii_gate_check t).snd) ↔
      bdTriggered (tokenSanitize t.data) = true := by
  have hne1 : ("birthdate_like_sequence_detected" : String) ≠
      "personnummer_detected" := by decide
  have hne3 : ("birthdate_like_sequence_detected" : String) ≠
      "email_detected" := by decide
  have hne4 : ("birthdate_like_sequence_detected" : String) ≠
      "phone_detected" := by decide
  have hne5 : ("birthdate_like_sequence_detected" : String) ≠
      "unmasked_id_detected" := by decide
  have hne6 : ("birthdate_like_sequence_detected" : String) ≠
      "long_number_detected" := by decide
  simp only [pii_gate_check, List.mem_append, mem_if_singleton]
  simp [hne1, hne3, hne4, hne5, hne6]

/-! ## Single-character-class substitution replaces every occurrence -/

theorem matchAt_cls {p : Char → Bool} {pre : List Char} {c : Char}
    {rs : List Char} :
    matchAt (RE.cls p) pre (c :: rs) =
      if p c then some ([c], rs) else none := by
  by_cases hp : p c <;> simp [matchAt, mCont, hp]

theorem searchSk_cls_none {p : Char → Bool} :
    ∀ {pre s : List Char}, searchSk (RE.cls p) pre s = none →
      ∀ c ∈ s, p c = false := by
  intro pre s
  induction s generalizing pre with
  | nil =>
    intro _ c hc
    simp at hc
  | cons c rs ih =>
    intro h d hd
    simp only [searchSk, matchAt_cls] at h
    by_cases hp : p c
    · rw [if_pos hp] at h
      exact absurd h (by simp)
    · rw [if_neg hp] at h
      rcases List.mem_cons.mp hd with he | hm
      · rw [he]
        simpa using hp
      · cases hs : searchSk (RE.cls p) (c :: pre) rs with
        | some w => rw [hs] at h; exact absurd h (by cases w with | mk a b => cases b with | mk u v => simp at h)
        | none => exact ih hs d hm

theorem searchSk_cls_some {p : Char → Bool} :
    ∀ {pre s sk m rest : List Char},
      searchSk (RE.cls p) pre s = some (sk, m, rest) →
      (∀ c ∈ sk, p c = false) ∧ ∃ ch, p ch = true ∧ m = [ch] := by
  intro pre s
  induction s generalizing pre with
  | nil =>
    intro sk m rest h
    simp [searchSk, matchAt, mCont] at h
  | cons c rs ih =>
    intro sk m rest h
    simp only [searchSk, matchAt_cls] at h
    by_cases hp : p c
    · rw [if_pos hp] at h
      simp only [Option.some.injEq, Prod.mk.injEq] at h
      obtain ⟨h1, h2, h3⟩ := h
      subst h1; subst h2
      exact ⟨by simp, c, hp, rfl⟩
    · rw [if_neg hp] at h
      cases hs : searchSk (RE.cls p) (c :: pre) rs with
      | some w =>
        obtain ⟨sk0, m0, rest0⟩ := w
        rw [hs] at h
        simp only [Option.some.injEq, Prod.mk.injEq] at h
        obtain ⟨h1, h2, h3⟩ := h
        subst h1; subst h2
        obtain ⟨ha, hb⟩ := ih hs
        refine ⟨?_, hb⟩
        intro d hd
        rcases List.mem_cons.mp hd with he | hm
        · rw [he]; simpa using hp
        · exact ha d hm
      | none =>
        rw [hs] at h
        exact absurd h (by simp)

theorem subAllF_cls_allnot {p : Char → Bool} {f : List Char → List Char}
    (hf : ∀ m c, c ∈ f m → p c = false) :
    ∀ (fuel : Nat) (pre s : List Char), s.length < fuel →
      ∀ c ∈ subAllF (RE.cls p) f fuel pre s, p c = false := by
  intro fuel
  induction fuel with
  | zero =>
    intro pre s hlen
    exact absurd hlen (by omega)
  | succ fuel ih =>
    intro pre s hlen c hc
    simp only [subAllF] at hc
    cases hsk : searchSk (RE.cls p) pre s with
    | none =>
      rw [hsk] at hc
      exact searchSk_cls_none hsk c hc
    | some v =>
      obtain ⟨sk, m, rest⟩ := v
      rw [hsk] at hc
      obtain ⟨hskall, ch, hch, hm⟩ := searchSk_cls_some hsk
      have hdec := searchSk_decomp hsk
      subst hm
      simp only [List.mem_append] at hc
      rcases hc with (hc | hc) | hc
      · exact hskall c hc
      · exact hf [ch] c hc
      · refine ih _ rest ?_ c hc
        have : s.length = sk.length + 1 + rest.length := by
          rw [hdec]; simp; omega
        omega

theorem subAll_cls_allnot {p : Char → Bool} {f : List Char → List Char}
    (hf : ∀ m c, c ∈ f m → p c = false) (s : List Char) :
    ∀ c ∈ subAll (RE.cls p) f s, p c = false :=
  subAllF_cls_allnot hf _ [] s (by omega)

/-! ## splitNl / joinNl / labelLine -/

theorem splitNl_ne_nil : ∀ x : List Char, splitNl x ≠ [] := by
  intro x
  cases x with
  | nil => simp [splitNl]
  | cons c rest =>
    simp only [splitNl]
    by_cases hc : c = '\n'
    · simp [hc]
    · rw [if_neg hc]
      cases splitNl rest <;> simp

theorem mem_splitNl_mem :
    ∀ {x l : List Char} {c : Char}, l ∈ splitNl x → c ∈ l → c ∈ x := by
  intro x
  induction x with
  | nil =>
    intro l c hl hc
    simp [splitNl] at hl
    subst hl
    simp at hc
  | cons a rest ih =>
    intro l c hl hc
    simp only [splitNl] at hl
    by_cases ha : a = '\n'
    · rw [if_pos ha] at hl
      rcases List.mem_cons.mp hl with he | hm
      · subst he; simp at hc
      · simp [ih hm hc]
    · rw [if_neg ha] at hl
      cases hsp : splitNl rest with
      | nil => exact absurd hsp (splitNl_ne_nil rest)
      | cons l0 ls =>
        rw [hsp] at hl
        rcases List.mem_cons.mp hl with he | hm
        · subst he
          rcases List.mem_cons.mp hc with he2 | hm2
          · simp [he2]
          · have : c ∈ rest := ih (by rw [hsp]; simp) hm2
            simp [this]
        · have : c ∈ rest := ih (by rw [hsp]; simp [hm]) hc
          simp [this]

theorem mem_joinNl :
    ∀ {ls : List (List Char)} {c : Char}, c ∈ joinNl ls →
      c = '\n' ∨ ∃ l ∈ ls, c ∈ l := by
  intro ls
  induction ls with
  | nil =>
    intro c hc
    simp [joinNl] at hc
  | cons l ls ih =>
    intro c hc
    cases ls with
    | nil =>
      simp only [joinNl] at hc
      exact Or.inr ⟨l, by simp, hc⟩
    | cons l2 ls2 =>
      simp only [joinNl, List.mem_append, List.mem_cons] at hc
      rcases hc with hc | hc | hc
      · exact Or.inr ⟨l, by simp, hc⟩
      · exact Or.inl hc
      · rcases ih hc with he | ⟨l3, hl3, hc3⟩
        · exact Or.inl he
        · exact Or.inr ⟨l3, by simp [hl3], hc3⟩

theorem labelLine_cases (l : List Char) :
    labelLine l = l ∨ ∃ rule ∈ labelRules, labelLine l = rule.canon := by
  unfold labelLine
  cases h : labelRules.find? (fun rule => reMatchB rule.pat l) with
  | none => exact Or.inl rfl
  | some rule => exact Or.inr ⟨rule, List.mem_of_find?_eq_some h, rfl⟩

theorem labelRules_canon_digit_free :
    ∀ rule ∈ labelRules, ∀ c ∈ rule.canon, isDig c = false := by
  intro rule hr
  simp only [labelRules, mkLabelRule, List.mem_cons, List.not_mem_nil,
    or_false] at hr
  rcases hr with h | h | h | h | h <;> subst h <;> decide

/-- Paranoid masking leaves no digit: each digit character is individually
replaced, and the later label step only swaps whole lines for digit-free
replacements. -/
theorem paranoid_digit_free (s : String) :
    ∀ c ∈ (mask_text_paranoid s).data, isDig c = false := by
  intro c hc
  have hc2 : c ∈ joinNl ((splitNl
      (subAll (RE.cls isDig) (fun _ => "[NUM]".data)
        (subAll urlPat (fun _ => "[LINK]".data)
          (subAll emailMaskPat (fun _ => "[LINK]".data) s.data)))).map
      labelLine) := hc
  have hall : ∀ d ∈ subAll (RE.cls isDig) (fun _ => "[NUM]".data)
      (subAll urlPat (fun _ => "[LINK]".data)
        (subAll emailMaskPat (fun _ => "[LINK]".data) s.data)), isDig d = false := by
    apply subAll_cls_allnot
    intro m d hd
    revert d
    decide
  rcases mem_joinNl hc2 with he | ⟨l, hl, hcl⟩
  · rw [he]; decide
  · obtain ⟨l0, hl0, hll⟩ := List.mem_map.mp hl
    rcases labelLine_cases l0 with he2 | ⟨rule, hrule, he2⟩
    · rw [← hll, he2] at hcl
      exact hall c (mem_splitNl_mem hl0 hcl)
    · rw [← hll, he2] at hcl
      exact labelRules_canon_digit_free rule hrule c hcl

/-! ## splitNl and joinNl are inverse on newline-free lines -/

theorem not_nl_mem_splitNl :
    ∀ {x l : List Char}, l ∈ splitNl x → '\n' ∉ l := by
  intro x
  induction x with
  | nil =>
    intro l hl
    simp [splitNl] at hl
    subst hl
    simp
  | cons a rest ih =>
    intro l hl
    simp only [splitNl] at hl
    by_cases ha : a = '\n'
    · rw [if_pos ha] at hl
      rcases List.mem_cons.mp hl with he | hm
      · subst he; simp
      · exact ih hm
    · rw [if_neg ha] at hl
      cases hsp : splitNl rest with
      | nil => exact absurd hsp (splitNl_ne_nil rest)
      | cons l0 ls =>
        rw [hsp] at hl
        rcases List.mem_cons.mp hl with he | hm
        · subst he
          intro hmem
          rcases List.mem_cons.mp hmem with he2 | hm2
          · exact ha he2.symm
          · exact ih (by rw [hsp]; simp) hm2
        · exact ih (by rw [hsp]; simp [hm])

theorem joinNl_splitNl : ∀ x : List Char, joinNl (splitNl x) = x := by
  intro x
  induction x with
  | nil => rfl
  | cons a rest ih =>
    simp only [splitNl]
    by_cases ha : a = '\n'
    · rw [if_pos ha]
      cases hsp : splitNl rest with
      | nil => exact absurd hsp (splitNl_ne_nil rest)
      | cons l0 ls =>
        rw [hsp] at ih
        simp only [joinNl]
        rw [ih, ha]
        simp
    · rw [if_neg ha]
      cases hsp : splitNl rest with
      | nil => exact absurd hsp (splitNl_ne_nil rest)
      | cons l0 ls =>
        rw [hsp] at ih
        cases ls with
        | nil =>
          simp only [joinNl] at ih ⊢
          rw [ih]
        | cons l1 ls1 =>
          simp only [joinNl] at ih ⊢
          rw [List.cons_append, ih]

theorem splitNl_no_nl {l : List Char} (h : '\n' ∉ l) : splitNl l = [l] := by
  induction l with
  | nil => rfl
  | cons c cs ih =>
    have hc : c ≠ '\n' := fun he => h (by simp [he])
    simp only [splitNl, if_neg hc]
    rw [ih (fun hm => h (by simp [hm]))]

theorem splitNl_append_nl_cons {l w : List Char} (h : '\n' ∉ l) :
    splitNl (l ++ '\n' :: w) = l :: splitNl w := by
  induction l with
  | nil => simp [splitNl]
  | cons c cs ih =>
    have hc : c ≠ '\n' := fun he => h (by simp [he])
    simp only [List.cons_append, splitNl, if_neg hc, List.append_eq]
    rw [ih (fun hm => h (by simp [hm]))]

theorem splitNl_joinNl :
    ∀ ls : List (List Char), ls ≠ [] → (∀ l ∈ ls, '\n' ∉ l) →
      splitNl (joinNl ls) = ls := by
  intro ls
  induction ls with
  | nil => intro h; exact absurd rfl h
  | cons l ls ih =>
    intro _ hnl
    cases ls with
    | nil =>
      simp only [joinNl]
      exact splitNl_no_nl (hnl l (by simp))
    | cons l2 ls2 =>
      simp only [joinNl]
      rw [splitNl_append_nl_cons (hnl l (by simp))]
      rw [ih (by simp) (fun u hu => hnl u (by simp [hu]))]

theorem labelRules_canon_no_nl :
    ∀ rule ∈ labelRules, '\n' ∉ rule.canon := by
  intro rule hr
  simp only [labelRules, mkLabelRule, List.mem_cons, List.not_mem_nil,
    or_false] at hr
  rcases hr with h | h | h | h | h <;> subst h <;> decide

theorem labelLine_no_nl {l : List Char} (h : '\n' ∉ l) :
    '\n' ∉ labelLine l := by
  rcases labelLine_cases l with he | ⟨rule, hr, he⟩
  · rw [he]; exact h
  · rw [he]; exact labelRules_canon_no_nl rule hr

theorem labelLine_idem (l : List Char) :
    labelLine (labelLine l) = labelLine l := by
  rcases labelLine_cases l with he | ⟨rule, hr, he⟩
  · rw [he]
    exact he
  · rw [he]
    revert hr
    simp only [labelRules, mkLabelRule, List.mem_cons, List.not_mem_nil,
      or_false]
    rintro (h | h | h | h | h) <;> subst h <;> decide

/-- The per-line label pass of paranoid masking is idempotent. -/
theorem labelsOp_idem (y : List Char) :
    joinNl ((splitNl (joinNl ((splitNl y).map labelLine))).map labelLine) =
      joinNl ((splitNl y).map labelLine) := by
  have h1 : splitNl (joinNl ((splitNl y).map labelLine)) =
      (splitNl y).map labelLine := by
    refine splitNl_joinNl _ ?_ ?_
    · intro hmap
      exact splitNl_ne_nil y (List.map_eq_nil_iff.mp hmap)
    · intro l hl
      obtain ⟨l0, hl0, he⟩ := List.mem_map.mp hl
      rw [← he]
      exact labelLine_no_nl (not_nl_mem_splitNl hl0)
  rw [h1, List.map_map]
  congr 1
  apply List.map_congr_left
  intro l _
  exact labelLine_idem l

/-! ## Masking is the identity on text with no digit, at-sign or colon -/

theorem foldl_subAll_id {q : Char → Bool} :
    ∀ (pats : List RE) (repl : List Char → List Char) (s : List Char),
      (∀ p ∈ pats, ReqChar q p) → (∀ c ∈ s, q c = false) →
      pats.foldl (fun t p => subAll p repl t) s = s := by
  intro pats
  induction pats with
  | nil =>
    intro repl s _ _
    rfl
  | cons p ps ih =>
    intro repl s hreq hs
    simp only [List.foldl_cons]
    rw [subAll_id_of_req (hreq p (by simp)) hs]
    exact ih repl s (fun p2 hp2 => hreq p2 (by simp [hp2])) hs

theorem mask_normal_id {x : String} (h : ∀ c ∈ x.data, qMask c = false) :
    mask_text_normal x = x := by
  simp only [mask_text_normal]
  rw [subAll_id_of_req (req_emailMask (by decide)) h]
  rw [subAll_id_of_req (req_pnrMask digit_qMask) h]
  rw [foldl_subAll_id _ _ _ ?phones h]
  case phones =>
    intro p hp
    simp only [List.mem_cons, List.not_mem_nil, or_false] at hp
    rcases hp with h1 | h2 | h3 | h4 | h5
    · subst h1; exact req_phone1 digit_qMask
    · subst h2; exact req_phone2 digit_qMask
    · subst h3; exact req_phone3 digit_qMask
    · subst h4; exact req_phone4 digit_qMask
    · subst h5; exact req_phone5 digit_qMask
  rw [subAll_id_of_req (req_longMask digit_qMask) h]

theorem mask_strict_id {x : String} (h : ∀ c ∈ x.data, qMask c = false) :
    mask_text_strict x = x := by
  simp only [mask_text_strict]
  rw [mask_normal_id h]
  rw [foldl_subAll_id _ _ _ (req_idPats digit_qMask) h]
  rw [subAll_id_of_req (req_cluster digit_qMask) h]
  rw [subAll_id_of_req (req_standalone digit_qMask) h]

theorem mask_paranoid_idem (s : String)
    (h : ∀ c ∈ (mask_text_paranoid s).data, qMask c = false) :
    mask_text_paranoid (mask_text_paranoid s) = mask_text_paranoid s := by
  have hdata : (mask_text_paranoid s).data = joinNl ((splitNl
      (subAll (RE.cls isDig) (fun _ => "[NUM]".data)
        (subAll urlPat (fun _ => "[LINK]".data)
          (subAll emailMaskPat (fun _ => "[LINK]".data) s.data)))).map
      labelLine) := rfl
  conv_lhs => rw [mask_text_paranoid]
  rw [subAll_id_of_req (req_emailMask (by decide)) h]
  rw [subAll_id_of_req (req_url (by decide)) h]
  rw [subAll_id_of_req (ReqChar.cls digit_qMask) h]
  have key : joinNl ((splitNl (mask_text_paranoid s).data).map labelLine) =
      (mask_text_paranoid s).data := by
    rw [hdata]
    exact labelsOp_idem _
  rw [key]

/-! ## normalize_text: building blocks of the idempotence analysis -/

theorem mem_mapCR_ne_cr {z : List Char} : ∀ c ∈ mapCRtoNl z, c ≠ '\r' := by
  intro c hc
  obtain ⟨d, _, he⟩ := List.mem_map.mp hc
  by_cases hd : d = '\r'
  · rw [hd] at he
    simp at he
    rw [← he]
    decide
  · rw [if_neg hd] at he
    rw [← he]
    exact hd

theorem replCRLF_id {z : List Char} (h : ∀ c ∈ z, c ≠ '\r') :
    replCRLF z = z := by
  induction z with
  | nil => rfl
  | cons c rest ih =>
    cases rest with
    | nil => rfl
    | cons d rest2 =>
      have hc : c ≠ '\r' := h c (by simp)
      simp only [replCRLF]
      rw [if_neg (by simp [hc])]
      rw [ih (fun e he => h e (by simp [he]))]

theorem mapCR_id {z : List Char} (h : ∀ c ∈ z, c ≠ '\r') :
    mapCRtoNl z = z := by
  unfold mapCRtoNl
  have he : List.map (fun c => if c = '\r' then '\n' else c) z =
      List.map id z :=
    List.map_congr_left (fun c hc => by rw [if_neg (h c hc)]; rfl)
  rw [he, List.map_id]

theorem collapse_mem : ∀ {n : Nat} {z : List Char} {c : Char},
    c ∈ collapseNl n z → c ∈ z := by
  intro n z
  induction z generalizing n with
  | nil =>
    intro c hc
    simp [collapseNl] at hc
  | cons a rest ih =>
    intro c hc
    simp only [collapseNl] at hc
    by_cases ha : a = '\n'
    · rw [if_pos ha] at hc
      by_cases hn : 2 ≤ n
      · rw [if_pos hn] at hc
        simp [ih hc]
      · rw [if_neg hn] at hc
        rcases List.mem_cons.mp hc with he | hm
        · simp [he]
        · simp [ih hm]
    · rw [if_neg ha] at hc
      rcases List.mem_cons.mp hc with he | hm
      · simp [he]
      · simp [ih hm]

theorem leadNl_cons_nl {rest : List Char} :
    leadNl ('\n' :: rest) = leadNl rest + 1 := by
  simp [leadNl]

theorem leadNl_cons_other {c : Char} {rest : List Char} (h : c ≠ '\n') :
    leadNl (c :: rest) = 0 := by
  simp [leadNl, h]

theorem hasTriple_cons {c : Char} {rest : List Char} :
    hasTriple (c :: rest) =
      ((c = '\n' && 2 ≤ leadNl rest) || hasTriple rest) := rfl

theorem hasTriple_tail {c : Char} {rest : List Char}
    (h : hasTriple (c :: rest) = false) : hasTriple rest = false := by
  rw [hasTriple_cons] at h
  exact (Bool.or_eq_false_iff.mp h).2

theorem collapse_ok : ∀ (z : List Char) (n : Nat),
    hasTriple (collapseNl n z) = false ∧
      leadNl (collapseNl n z) + min n 2 ≤ 2 := by
  intro z
  induction z with
  | nil =>
    intro n
    constructor
    · rfl
    · simp [collapseNl, leadNl]
  | cons a rest ih =>
    intro n
    simp only [collapseNl]
    by_cases ha : a = '\n'
    · rw [if_pos ha]
      by_cases hn : 2 ≤ n
      · rw [if_pos hn]
        obtain ⟨h1, h2⟩ := ih n
        exact ⟨h1, h2⟩
      · rw [if_neg hn]
        obtain ⟨h1, h2⟩ := ih (n + 1)
        rw [ha]
        constructor
        · rw [hasTriple_cons, h1]
          have hlt : ¬ (2 ≤ leadNl (collapseNl (n + 1) rest)) := by omega
          simp [hlt]
        · rw [leadNl_cons_nl]
          omega
    · rw [if_neg ha]
      obtain ⟨h1, h2⟩ := ih 0
      constructor
      · rw [hasTriple_cons, h1]
        simp [ha]
      · rw [leadNl_cons_other ha]
        omega

theorem hasTriple_lead_le {z : List Char} (h : hasTriple z = false) :
    leadNl z ≤ 2 := by
  cases z with
  | nil => simp [leadNl]
  | cons c rest =>
    by_cases hc : c = '\n'
    · subst hc
      rw [leadNl_cons_nl]
      rw [hasTriple_cons] at h
      have h1 := (Bool.or_eq_false_iff.mp h).1
      have h2 : ¬(2 ≤ leadNl rest) := by
        intro hge
        simp [hge] at h1
      omega
    · rw [leadNl_cons_other hc]
      omega

theorem collapse_id : ∀ (z : List Char) (n : Nat),
    hasTriple z = false → leadNl z + n ≤ 2 → collapseNl n z = z := by
  intro z
  induction z with
  | nil =>
    intro n _ _
    rfl
  | cons a rest ih =>
    intro n ht hl
    simp only [collapseNl]
    by_cases ha : a = '\n'
    · rw [if_pos ha]
      subst ha
      rw [leadNl_cons_nl] at hl
      rw [if_neg (by omega)]
      rw [ih (n + 1) (hasTriple_tail ht) (by omega)]
    · rw [if_neg ha]
      have ht2 := hasTriple_tail ht
      rw [ih 0 ht2 (by have := hasTriple_lead_le ht2; omega)]

theorem hasTriple_dropWhile {p : Char → Bool} :
    ∀ {z : List Char}, hasTriple z = false →
      hasTriple (z.dropWhile p) = false := by
  intro z
  induction z with
  | nil =>
    intro h
    simpa using h
  | cons c rest ih =>
    intro h
    rw [List.dropWhile_cons]
    by_cases hp : p c
    · simp only [hp, if_true]
      exact ih (hasTriple_tail h)
    · simp only [hp, Bool.false_eq_true, if_false]
      exact h

theorem lead_ge_one {z : List Char} (h : 1 ≤ leadNl z) :
    ∃ b, z = '\n' :: b := by
  cases z with
  | nil => simp [leadNl] at h
  | cons c rest =>
    by_cases hc : c = '\n'
    · exact ⟨rest, by rw [hc]⟩
    · rw [leadNl_cons_other hc] at h
      omega

theorem lead_ge_two {z : List Char} (h : 2 ≤ leadNl z) :
    ∃ b, z = '\n' :: '\n' :: b := by
  obtain ⟨b, hb⟩ := lead_ge_one (z := z) (by omega)
  subst hb
  rw [leadNl_cons_nl] at h
  obtain ⟨b2, hb2⟩ := lead_ge_one (z := b) (by omega)
  exact ⟨b2, by rw [hb2]⟩

theorem hasTriple_exists {z : List Char} (h : hasTriple z = true) :
    ∃ a b, z = a ++ '\n' :: '\n' :: '\n' :: b := by
  induction z with
  | nil => simp [hasTriple] at h
  | cons c rest ih =>
    rw [hasTriple_cons] at h
    rcases Bool.or_eq_true_iff.mp h with h1 | h1
    · rcases Bool.and_eq_true_iff.mp h1 with ⟨hc, hl⟩
      simp only [decide_eq_true_eq] at hc hl
      obtain ⟨b, hb⟩ := lead_ge_two hl
      exact ⟨[], b, by rw [hc, hb]; rfl⟩
    · obtain ⟨a, b, hab⟩ := ih h1
      exact ⟨c :: a, b, by rw [hab]; rfl⟩

theorem exists_hasTriple {z a b : List Char}
    (h : z = a ++ '\n' :: '\n' :: '\n' :: b) : hasTriple z = true := by
  subst h
  induction a with
  | nil =>
    simp only [List.nil_append, hasTriple_cons, leadNl_cons_nl]
    have hge : 2 ≤ leadNl b + 1 + 1 := by omega
    simp [hge]
  | cons c a2 ih =>
    rw [List.cons_append, hasTriple_cons, ih]
    simp

theorem hasTriple_reverse {z : List Char} :
    hasTriple z.reverse = hasTriple z := by
  have dir : ∀ w : List Char, hasTriple w = true → hasTriple w.reverse = true := by
    intro w hw
    obtain ⟨a, b, hab⟩ := hasTriple_exists hw
    apply exists_hasTriple (a := b.reverse) (b := a.reverse)
    rw [hab]
    simp
  cases h1 : hasTriple z with
  | true => exact dir z h1
  | false =>
    cases h2 : hasTriple z.reverse with
    | false => rfl
    | true =>
      have := dir z.reverse h2
      rw [List.reverse_reverse] at this
      rw [this] at h1
      exact absurd h1 (by simp)

/-! ## Trailing whitespace of lines -/

theorem noTrail_cons {c : Char} {l : List Char} (h : l ≠ []) :
    noTrailWS (c :: l) = noTrailWS l := by
  cases hrev : l.reverse with
  | nil => exact absurd (List.reverse_eq_nil_iff.mp hrev) h
  | cons d ds =>
    have h2 : (c :: l).reverse = d :: (ds ++ [c]) := by
      rw [List.reverse_cons, hrev]
      rfl
    simp [noTrailWS, hrev, h2]

theorem rstrip_fix_iff {l : List Char} :
    rstripL l = l ↔ noTrailWS l = true := by
  cases hrev : l.reverse with
  | nil =>
    have hl : l = [] := List.reverse_eq_nil_iff.mp hrev
    subst hl
    simp [rstripL, noTrailWS]
  | cons c w =>
    have hl : l = (c :: w).reverse := by
      rw [← hrev, List.reverse_reverse]
    constructor
    · intro hfix
      simp only [noTrailWS, hrev]
      by_cases hws : pySpace c
      · exfalso
        rw [rstripL, hrev] at hfix
        rw [List.dropWhile_cons, if_pos hws] at hfix
        have hlen : (w.dropWhile pySpace).length ≤ w.length :=
          (List.dropWhile_sublist pySpace).length_le
        have : l.length = w.length + 1 := by
          rw [hl]
          simp
        have hlen2 : (w.dropWhile pySpace).reverse.length = l.length := by
          rw [hfix]
        simp only [List.length_reverse] at hlen2
        omega
      · simp [hws]
    · intro hnt
      simp only [noTrailWS, hrev] at hnt
      have hws : pySpace c = false := by
        cases hq : pySpace c
        · rfl
        · rw [hq] at hnt; exact absurd hnt (by simp)
      rw [rstripL, hrev, List.dropWhile_cons, hws]
      simp only [Bool.false_eq_true, if_false]
      rw [← hrev, List.reverse_reverse]

theorem splitNl_append_last_nl :
    ∀ w : List Char, splitNl (w ++ ['\n']) = splitNl w ++ [[]] := by
  intro w
  induction w with
  | nil => rfl
  | cons a w2 ih =>
    by_cases ha : a = '\n'
    · simp only [List.cons_append, splitNl, if_pos ha, List.append_eq, ih]
    · simp only [List.cons_append, splitNl, if_neg ha, List.append_eq, ih]
      cases hsp : splitNl w2 with
      | nil => exact absurd hsp (splitNl_ne_nil w2)
      | cons l0 ls => rfl

theorem lines_noTrail_last :
    ∀ (w : List Char) {c : Char},
      (∀ l ∈ splitNl (w ++ [c]), noTrailWS l = true) →
      pySpace c = true → c ≠ '\n' → False := by
  intro w
  induction w with
  | nil =>
    intro c h hws hnl
    have h1 := h [c] (by simp [splitNl, if_neg hnl])
    simp [noTrailWS, hws] at h1
  | cons a w2 ih =>
    intro c h hws hnl
    by_cases ha : a = '\n'
    · refine ih (fun l hl => h l ?_) hws hnl
      simp only [List.cons_append, splitNl, if_pos ha]
      simp [hl]
    · cases hsp : splitNl (w2 ++ [c]) with
      | nil => exact absurd hsp (splitNl_ne_nil _)
      | cons l0 ls =>
        refine ih (fun l hl => ?_) hws hnl
        rw [hsp] at hl
        rcases List.mem_cons.mp hl with he | hm
        · subst he
          cases l with
          | nil => simp [noTrailWS]
          | cons e es =>
            have h2 := h (a :: e :: es) (by
              simp only [List.cons_append, splitNl, if_neg ha, List.append_eq,
                hsp]
              simp)
            rw [noTrail_cons (by simp)] at h2
            exact h2
        · refine h l ?_
          simp only [List.cons_append, splitNl, if_neg ha, List.append_eq, hsp]
          simp [hm]

theorem lstrip_lines :
    ∀ {z : List Char}, (∀ l ∈ splitNl z, noTrailWS l = true) →
      ∀ l ∈ splitNl (lstripL z), noTrailWS l = true := by
  intro z
  induction z with
  | nil =>
    intro h
    exact h
  | cons a rest ih =>
    intro h
    unfold lstripL
    rw [List.dropWhile_cons]
    by_cases hws : pySpace a
    · rw [if_pos hws]
      by_cases ha : a = '\n'
      · refine ih (fun l hl => h l ?_)
        simp only [splitNl, if_pos ha]
        simp [hl]
      · cases hsp : splitNl rest with
        | nil => exact absurd hsp (splitNl_ne_nil rest)
        | cons l0 ls =>
          refine ih (fun l hl => ?_)
          rw [hsp] at hl
          rcases List.mem_cons.mp hl with he | hm
          · subst he
            cases l with
            | nil => simp [noTrailWS]
            | cons e es =>
              have h2 := h (a :: e :: es) (by
                simp only [splitNl, if_neg ha, hsp]
                simp)
              rw [noTrail_cons (by simp)] at h2
              exact h2
          · refine h l ?_
            simp only [splitNl, if_neg ha, hsp]
            simp [hm]
    · rw [if_neg hws]
      exact h

theorem rstrip_append_nl (w : List Char) :
    rstripL (w ++ ['\n']) = rstripL w := by
  unfold rstripL
  rw [List.reverse_append]
  simp only [List.reverse_cons, List.reverse_nil, List.nil_append,
    List.singleton_append, List.dropWhile_cons]
  rw [if_pos (by decide)]

theorem rstrip_lines :
    ∀ (z : List Char), (∀ l ∈ splitNl z, noTrailWS l = true) →
      ∀ l ∈ splitNl (rstripL z), noTrailWS l = true := by
  intro z
  induction z using List.reverseRecOn with
  | nil =>
    intro h
    exact h
  | append_singleton w c ih =>
    intro h
    by_cases hws : pySpace c
    · by_cases hnl : c = '\n'
      · subst hnl
        rw [rstrip_append_nl]
        refine ih (fun l hl => h l ?_)
        rw [splitNl_append_last_nl]
        simp [hl]
      · exact absurd (lines_noTrail_last w h hws hnl) (by simp)
    · have hfix : rstripL (w ++ [c]) = w ++ [c] := by
        rw [rstrip_fix_iff]
        simp [noTrailWS, List.reverse_append, hws]
      rw [hfix]
      exact h

/-! ## dropWhile and strip facts -/

theorem dropWhile_head {p : Char → Bool} :
    ∀ l : List Char, l.dropWhile p = [] ∨
      ∃ c cs, l.dropWhile p = c :: cs ∧ p c = false := by
  intro l
  induction l with
  | nil => exact Or.inl rfl
  | cons c cs ih =>
    rw [List.dropWhile_cons]
    by_cases hp : p c
    · rw [if_pos hp]
      exact ih
    · rw [if_neg hp]
      exact Or.inr ⟨c, cs, rfl, by simpa using hp⟩

theorem dropWhile_idem {p : Char → Bool} (l : List Char) :
    (l.dropWhile p).dropWhile p = l.dropWhile p := by
  rcases dropWhile_head (p := p) l with h | ⟨c, cs, h, hc⟩
  · rw [h]
    rfl
  · rw [h, List.dropWhile_cons, hc]
    simp

theorem dropWhile_append_singleton {p : Char → Bool} :
    ∀ (u : List Char) (c : Char),
      (u ++ [c]).dropWhile p =
        if u.dropWhile p = [] then (if p c then [] else [c])
        else u.dropWhile p ++ [c] := by
  intro u c
  induction u with
  | nil =>
    simp [List.dropWhile_cons]
  | cons a u2 ih =>
    rw [List.cons_append, List.dropWhile_cons, List.dropWhile_cons]
    by_cases hp : p a
    · rw [if_pos hp, if_pos hp, ih]
    · rw [if_neg hp, if_neg hp]
      rw [if_neg (by simp)]
      rfl

theorem lstrip_idem (z : List Char) : lstripL (lstripL z) = lstripL z :=
  dropWhile_idem z

theorem rstrip_idem (y : List Char) : rstripL (rstripL y) = rstripL y := by
  unfold rstripL
  rw [List.reverse_reverse, dropWhile_idem]

theorem lstrip_fix_rstrip {y : List Char} (h : lstripL y = y) :
    lstripL (rstripL y) = rstripL y := by
  cases y with
  | nil => rfl
  | cons c cs =>
    have hws : pySpace c = false := by
      unfold lstripL at h
      rw [List.dropWhile_cons] at h
      by_cases hp : pySpace c
      · exfalso
        rw [if_pos hp] at h
        have := (List.dropWhile_sublist (l := cs) pySpace).length_le
        have h2 : (cs.dropWhile pySpace).length = (c :: cs).length :=
          congrArg List.length h
        simp only [List.length_cons] at h2
        omega
      · simpa using hp
    unfold rstripL
    rw [List.reverse_cons, dropWhile_append_singleton]
    by_cases hdw : cs.reverse.dropWhile pySpace = []
    · rw [if_pos hdw, hws]
      simp [lstripL, List.dropWhile_cons, hws]
    · rw [if_neg hdw]
      rw [List.reverse_append]
      simp only [List.reverse_cons, List.reverse_nil, List.nil_append,
        List.singleton_append]
      unfold lstripL
      rw [List.dropWhile_cons, hws]
      simp

theorem strip_idem (x : List Char) : stripWS (stripWS x) = stripWS x := by
  unfold stripWS
  rw [lstrip_fix_rstrip (lstrip_idem x), rstrip_idem]

theorem hasTriple_rstrip {y : List Char} (h : hasTriple y = false) :
    hasTriple (rstripL y) = false := by
  unfold rstripL
  rw [hasTriple_reverse]
  apply hasTriple_dropWhile
  rw [hasTriple_reverse]
  exact h

theorem hasTriple_strip {z : List Char} (h : hasTriple z = false) :
    hasTriple (stripWS z) = false :=
  hasTriple_rstrip (hasTriple_dropWhile h)

theorem mem_dropWhile_sub {p : Char → Bool} :
    ∀ {l : List Char} {c : Char}, c ∈ l.dropWhile p → c ∈ l := by
  intro l
  induction l with
  | nil =>
    intro c hc
    simp at hc
  | cons a l2 ih =>
    intro c hc
    rw [List.dropWhile_cons] at hc
    by_cases hp : p a
    · rw [if_pos hp] at hc
      simp [ih hc]
    · rw [if_neg hp] at hc
      exact hc

theorem mem_strip_sub {z : List Char} {c : Char} (h : c ∈ stripWS z) :
    c ∈ z := by
  unfold stripWS rstripL lstripL at h
  have h1 := List.mem_reverse.mp h
  have h2 := mem_dropWhile_sub h1
  have h3 := List.mem_reverse.mp h2
  exact mem_dropWhile_sub h3

theorem strip_lines {z : List Char}
    (h : ∀ l ∈ splitNl z, noTrailWS l = true) :
    ∀ l ∈ splitNl (stripWS z), noTrailWS l = true :=
  rstrip_lines _ (lstrip_lines h)

theorem collapse0_cases (rest : List Char) :
    rest = [] ∨ ∃ b r2, rest = b :: r2 ∧ ∃ w2, collapseNl 0 rest = b :: w2 := by
  cases rest with
  | nil => exact Or.inl rfl
  | cons b r2 =>
    refine Or.inr ⟨b, r2, rfl, ?_⟩
    simp only [collapseNl]
    by_cases hb : b = '\n'
    · rw [if_pos hb, if_neg (by omega)]
      exact ⟨collapseNl 1 r2, rfl⟩
    · rw [if_neg hb]
      exact ⟨collapseNl 0 r2, rfl⟩

theorem splitNl_head_nil {u : List Char} {ms : List (List Char)}
    (h : splitNl u = [] :: ms) : u = [] ∨ ∃ u2, u = '\n' :: u2 := by
  cases u with
  | nil => exact Or.inl rfl
  | cons c u2 =>
    by_cases hc : c = '\n'
    · exact Or.inr ⟨u2, by rw [hc]⟩
    · exfalso
      simp only [splitNl, if_neg hc] at h
      cases hsp : splitNl u2 with
      | nil => exact splitNl_ne_nil u2 hsp
      | cons l0 ls =>
        rw [hsp] at h
        simp at h

theorem collapse_lines :
    ∀ {z : List Char} (n : Nat), (∀ l ∈ splitNl z, noTrailWS l = true) →
      ∀ l ∈ splitNl (collapseNl n z), noTrailWS l = true := by
  intro z
  induction z with
  | nil =>
    intro n h
    exact h
  | cons a rest ih =>
    intro n h
    simp only [collapseNl]
    by_cases ha : a = '\n'
    · rw [if_pos ha]
      have hrest : ∀ l ∈ splitNl rest, noTrailWS l = true := by
        intro l hl
        refine h l ?_
        simp only [splitNl, if_pos ha]
        simp [hl]
      by_cases hn : 2 ≤ n
      · rw [if_pos hn]
        exact ih n hrest
      · rw [if_neg hn]
        intro l hl
        rw [ha] at hl
        simp only [splitNl, if_pos rfl] at hl
        rcases List.mem_cons.mp hl with he | hm
        · rw [he]
          rfl
        · exact ih (n + 1) hrest l hm
    · rw [if_neg ha]
      cases hsp : splitNl rest with
      | nil => exact absurd hsp (splitNl_ne_nil rest)
      | cons l0 ls =>
        have hal0 : noTrailWS (a :: l0) = true := by
          refine h (a :: l0) ?_
          simp only [splitNl, if_neg ha, hsp]
          simp
        have hrest : ∀ l ∈ splitNl rest, noTrailWS l = true := by
          intro l hl
          rw [hsp] at hl
          rcases List.mem_cons.mp hl with he | hm
          · subst he
            cases l with
            | nil => rfl
            | cons e es =>
              rw [noTrail_cons (by simp)] at hal0
              exact hal0
          · refine h l ?_
            simp only [splitNl, if_neg ha, hsp]
            simp [hm]
        have hw := ih 0 hrest
        intro l hl
        cases hspw : splitNl (collapseNl 0 rest) with
        | nil => exact absurd hspw (splitNl_ne_nil _)
        | cons m0 ms =>
          simp only [splitNl, if_neg ha, hspw] at hl
          rcases List.mem_cons.mp hl with he | hm
          · subst he
            cases hm0 : m0 with
            | cons e es =>
              have hm0t : noTrailWS m0 = true := hw m0 (by rw [hspw]; simp)
              rw [hm0] at hm0t
              rw [noTrail_cons (by simp)]
              exact hm0t
            | nil =>
              have hl0nil : l0 = [] := by
                rw [hm0] at hspw
                rcases splitNl_head_nil hspw with hwnil | ⟨w2, hw2⟩
                · rcases collapse0_cases rest with hr | ⟨b, r2, hb, w3, hw3⟩
                  · rw [hr] at hsp
                    simp [splitNl] at hsp
                    exact hsp.1
                  · rw [hw3] at hwnil
                    simp at hwnil
                · rcases collapse0_cases rest with hr | ⟨b, r2, hb, w3, hw3⟩
                  · rw [hr] at hsp
                    simp [splitNl] at hsp
                    exact hsp.1
                  · rw [hw3] at hw2
                    have hbnl : b = '\n' := by
                      have := hw2
                      injection this with h1 h2
                    rw [hb, hbnl] at hsp
                    simp only [splitNl, if_pos rfl] at hsp
                    injection hsp with h1 h2
                    exact h1.symm
              rw [hl0nil] at hal0
              exact hal0
          · exact hw l (by rw [hspw]; simp [hm])

theorem normalize_text_unfold (x : String) :
    (normalize_text x).data = stripWS (joinNl ((splitNl
      (collapseNl 0 (mapCRtoNl (replCRLF x.data)))).map rstripL)) := rfl

/-- Claim C7 (corrected): normalize_text is NOT idempotent in general (a line
of blanks separating newlines defeats the blank-run collapse on the first
pass only); it is idempotent on every input whose lines,
after line-ending unification, carry no trailing whitespace — which covers the
spec's round-trip example of mixed line endings and a run of 4 truly blank
lines. -/
theorem normalize_idem_of_noTrail (s : String)
    (h : ∀ l ∈ splitNl (mapCRtoNl (replCRLF s.data)), noTrailWS l = true) :
    normalize_text (normalize_text s) = normalize_text s := by
  have hlines_cu : ∀ l ∈ splitNl (collapseNl 0 (mapCRtoNl (replCRLF s.data))),
      noTrailWS l = true := collapse_lines 0 h
  have hmap : (splitNl (collapseNl 0 (mapCRtoNl (replCRLF s.data)))).map
      rstripL = splitNl (collapseNl 0 (mapCRtoNl (replCRLF s.data))) := by
    have h2 : ∀ l ∈ splitNl (collapseNl 0 (mapCRtoNl (replCRLF s.data))),
        rstripL l = id l :=
      fun l hl => rstrip_fix_iff.mpr (hlines_cu l hl)
    rw [List.map_congr_left h2, List.map_id]
  have hn1 : (normalize_text s).data =
      stripWS (collapseNl 0 (mapCRtoNl (replCRLF s.data))) := by
    rw [normalize_text_unfold s, hmap, joinNl_splitNl]
  have hnocr : ∀ c ∈ stripWS (collapseNl 0 (mapCRtoNl (replCRLF s.data))),
      c ≠ '\r' :=
    fun c hc => mem_mapCR_ne_cr c (collapse_mem (mem_strip_sub hc))
  have htrip : hasTriple (stripWS
      (collapseNl 0 (mapCRtoNl (replCRLF s.data)))) = false :=
    hasTriple_strip (collapse_ok (mapCRtoNl (replCRLF s.data)) 0).1
  have hlines_o1 : ∀ l ∈ splitNl (stripWS
      (collapseNl 0 (mapCRtoNl (replCRLF s.data)))), noTrailWS l = true :=
    strip_lines hlines_cu
  have key : (normalize_text (normalize_text s)).data =
      (normalize_text s).data := by
    rw [normalize_text_unfold (normalize_text s), hn1]
    rw [replCRLF_id hnocr, mapCR_id hnocr]
    rw [collapse_id _ 0 htrip (by have := hasTriple_lead_le htrip; omega)]
    have hmap2 : (splitNl (stripWS (collapseNl 0 (mapCRtoNl
        (replCRLF s.data))))).map rstripL =
        splitNl (stripWS (collapseNl 0 (mapCRtoNl (replCRLF s.data)))) := by
      have h2 : ∀ l ∈ splitNl (stripWS (collapseNl 0 (mapCRtoNl
          (replCRLF s.data)))), rstripL l = id l :=
        fun l hl => rstrip_fix_iff.mpr (hlines_o1 l hl)
      rw [List.map_congr_left h2, List.map_id]
    rw [hmap2, joinNl_splitNl, strip_idem]
  cases hns : normalize_text (normalize_text s) with
  | mk d1 =>
    cases hns2 : normalize_text s with
    | mk d2 =>
      rw [hns, hns2] at key
      exact congrArg String.mk (by simpa using key)

/-- Witness for C7: on the spec's round-trip shape — mixed CRLF/CR/LF line
endings and a run of 4 consecutive blank lines — normalize_text applied twice
equals normalize_text applied once. -/
theorem C7_witness :
    normalize_text (normalize_text "a\r\nb\rc\n\n\n\n\nd") =
      normalize_text "a\r\nb\rc\n\n\n\n\nd" :=
  normalize_idem_of_noTrail "a\r\nb\rc\n\n\n\n\nd" (by decide)

/-- Counterexample to C7 as stated: on lines that consist of whitespace, the
first pass right-strips them into truly blank lines but collapses nothing,
while the second pass collapses the now-blank run — so normalize_text is not
idempotent on every string. -/
theorem C7_counterexample :
    normalize_text (normalize_text "a\n \n \n \nb") ≠
      normalize_text "a\n \n \n \nb" := by decide

/-! ## The claims -/

/-- Claim C1 (code_bug): the paranoid guarantee fails.  On the input "-@-.a",
mask_text at level paranoid returns the text unchanged (the masker's email
regex demands word boundaries and a dotted domain, which "-@-.a" lacks), yet
the gate's email regex has no such boundaries and flags it — so
check(mask(t, PARANOID)).is_safe is false, refuting the claim that it holds
for every t. -/
theorem C1_paranoid_gate_violation :
    pii_gate_check (mask_text "-@-.a" "paranoid") = (false, ["email_detected"]) := by
  decide

/-- Claim C2 (code_bug): the call sites do not all fail closed.  For the body
"-@-.a" — on which paranoid masking fails the gate as shown for claim
C1 — document upload aborts with the internal error
and feed import skips the item, but note creation runs no gate check on the
paranoid branch and persists a note whose stored level is PARANOID while the
gate on its stored masked text fails — refuting the claim that no record is
ever stored at level PARANOID without a passing gate check. -/
theorem C2_callsite_divergence :
    (createNoteSanitize "-@-.a").levelUsed = SanitizeLevel.paranoid ∧
    (pii_gate_check (createNoteSanitize "-@-.a").maskedText).fst = false ∧
    errOf (uploadDocumentSanitize "-@-.a") =
      some "Internal error: Paranoid masking failed PII gate check. This is a bug." ∧
    feedItemSanitize "-@-.a" = none :=
  ⟨by decide, by decide, by decide, by decide⟩

/-- Claim C3 (corrected): mask_text never fails on an unrecognized level;
instead of raising an InvalidLevel error it silently falls through to normal
masking: for every text s and every level other than "paranoid" and "strict"
(hence for every undefined level), mask_text s lv = mask_text_normal s. -/
theorem C3_mask_silent_default (s lv : String)
    (h1 : lv ≠ "paranoid") (h2 : lv ≠ "strict") :
    mask_text s lv = mask_text_normal s := by
  simp [mask_text, h1, h2]

/-- Witness for C3: the undefined level "bogus" is neither "paranoid" nor
"strict", and masking at it coincides with normal masking. -/
theorem C3_mask_silent_default_witness :
    mask_text "Ring 070-123 45 67" "bogus" = mask_text_normal "Ring 070-123 45 67" :=
  C3_mask_silent_default "Ring 070-123 45 67" "bogus" (by decide) (by decide)

/-- Counterexample to C3 as stated: calling mask_text with the undefined level
"bogus" does not fail — it returns the normal-level masking of the text. -/
theorem C3_undefined_level_counterexample :
    mask_text "Ring 070-123 45 67" "bogus" = "Ring [PHONE]" := by decide

/-- Claim C4 (corrected): the stored level of the pipeline is the lowest
passing one when some level passes, but when all three gate checks fail the
pipeline aborts with an internal error and stores no level at all (the claim
asserted level_used would be PARANOID in that case). -/
theorem C4_escalation_characterized (t : String) :
    levelOf (sanitizePipeline t) =
      (if (pii_gate_check (mask_text t "normal")).fst then some SanitizeLevel.normal
       else if (pii_gate_check (mask_text t "strict")).fst then some SanitizeLevel.strict
       else if (pii_gate_check (mask_text t "paranoid")).fst then some SanitizeLevel.paranoid
       else none) := by
  simp only [sanitizePipeline]
  by_cases h1 : (pii_gate_check (mask_text t "normal")).fst
  · simp [h1, levelOf]
  · simp only [h1, Bool.false_eq_true, if_false]
    by_cases h2 : (pii_gate_check (mask_text t "strict")).fst
    · simp [h2, levelOf]
    · simp only [h2, Bool.false_eq_true, if_false]
      by_cases h3 : (pii_gate_check (mask_text t "paranoid")).fst
      · simp [h3, levelOf]
      · simp [h3, levelOf]

/-- Counterexample to C4 as stated: on "-@-.a" every level's gate check fails,
so the pipeline stores no level (it aborts), while the claim requires
level_used == PARANOID. -/
theorem C4_no_level_counterexample :
    levelOf (sanitizePipeline "-@-.a") = none := by decide

/-- Claim C5 (corrected): paranoid masking leaves zero raw digits in its
output, for every input; but the claim's '@'-free and URL-scheme-free parts
are false — an at-sign not matching the masker's email shape and a scheme
followed by whitespace survive verbatim. -/
theorem C5_paranoid_residue :
    (∀ (s : String), ∀ c ∈ (mask_text s "paranoid").data, isDig c = false) ∧
    (∃ s : String, '@' ∈ (mask_text s "paranoid").data ∧
      occursIn "http://".data (mask_text s "paranoid").data = true) := by
  constructor
  · intro s c hc
    have e : mask_text s "paranoid" = mask_text_paranoid s := by simp [mask_text]
    rw [e] at hc
    exact paranoid_digit_free s c hc
  · exact ⟨"a@b http:// x", by decide, by decide⟩

/-- Counterexample to C5 as stated: the paranoid masking of "a@b http:// x"
still contains a raw at-sign and a raw URL scheme. -/
theorem C5_residue_counterexample :
    '@' ∈ (mask_text "a@b http:// x" "paranoid").data ∧
    occursIn "http://".data (mask_text "a@b http:// x" "paranoid").data = true := by
  decide

/-- Claim C6 (confirmed): the gate never reports a reason whose matched span
lies inside an already-emitted mask token.  Every reason the gate can report
matches on the token-sanitized text, every such matched span contains a digit
or an at-sign (first conjunct), and no character of an allowed token — nor of
the [TOKEN] placeholder the sanitization substitutes — is a digit or an
at-sign (second conjunct), so no reported span can lie inside a token; in
particular the bare token "[PHONE]" passes the gate with no reasons. -/
theorem C6_token_inertness :
    (∀ (t : String), ∀ m ∈ gateReasonMatches t, m.any qChar = true) ∧
    (∀ tok ∈ allowedTokenStrings, ∀ d ∈ tok.data, qChar d = false) ∧
    pii_gate_check "[PHONE]" = (true, []) :=
  ⟨fun _ _ hm => gateReasonMatches_req hm, by decide, by decide⟩

/-- Claim C8 (corrected): masking is not idempotent at every level (a second
pass can re-match digits a first-pass token abuts), but it is idempotent at
each defined level on
every input whose masked output is free of digits, at-signs and colons — the
characters every masking pattern requires. -/
theorem C8_mask_idem_of_clean (t lv : String)
    (hL : lv = "normal" ∨ lv = "strict" ∨ lv = "paranoid")
    (h : ∀ c ∈ (mask_text t lv).data, qMask c = false) :
    mask_text (mask_text t lv) lv = mask_text t lv := by
  rcases hL with hL | hL | hL <;> subst hL
  · have e : ∀ x : String, mask_text x "normal" = mask_text_normal x := by
      intro x; simp [mask_text]
    rw [e] at h ⊢
    rw [e]
    exact mask_normal_id h
  · have e : ∀ x : String, mask_text x "strict" = mask_text_strict x := by
      intro x; simp [mask_text]
    rw [e] at h ⊢
    rw [e]
    exact mask_strict_id h
  · have e : ∀ x : String, mask_text x "paranoid" = mask_text_paranoid x := by
      intro x; simp [mask_text]
    rw [e] at h ⊢
    rw [e]
    exact mask_paranoid_idem t h

/-- Witness for C8: the normal masking of "Ring 070-123 45 67" is
"Ring [PHONE]", which has no digit, at-sign or colon, and re-masking it
changes nothing. -/
theorem C8_mask_idem_witness :
    mask_text (mask_text "Ring 070-123 45 67" "normal") "normal" =
      mask_text "Ring 070-123 45 67" "normal" :=
  C8_mask_idem_of_clean "Ring 070-123 45 67" "normal" (Or.inl rfl) (by decide)

/-- Counterexample to C8 as stated: strict masking of "2025-11-200101" yields
"2025-11-[NUM]", and masking that again re-matches the leading date digits,
yielding a different string — mask is not idempotent at level strict. -/
theorem C8_second_pass_counterexample :
    mask_text (mask_text "2025-11-200101" "strict") "strict" ≠
      mask_text "2025-11-200101" "strict" := by decide

/-- Claim C9 (corrected): the birthdate reason fires exactly when some match
of the compact-date pattern has no hyphenated \d\x7b4\x7d-\d\x7b2\x7d-\d\x7b2\x7d
shape within its 20-character context window — the suppression looks only for
a nearby date SHAPE, not for a hyphenated rendering of the SAME date as the
claim asserts. -/
theorem C9_birthdate_rule (t : String) :
    ("birthdate_like_sequence_detected" ∈ (pii_gate_check t).snd) ↔
      ∃ im ∈ findIter bdPat (tokenSanitize t.data),
        dateNearby (tokenSanitize t.data) im = false := by
  rw [bd_reason_iff, bdTriggered_iff]

/-- Counterexample to C9 as stated: "19800101" alone is flagged as a
birthdate-like sequence, but placing the unrelated date "1111-11-11" nearby
suppresses the flag entirely, although it is not a hyphenated rendering of
the same date. -/
theorem C9_any_date_suppresses_counterexample :
    "birthdate_like_sequence_detected" ∈ (pii_gate_check "19800101").snd ∧
    "birthdate_like_sequence_detected" ∉
      (pii_gate_check "19800101 vs 1111-11-11").snd :=
  ⟨by decide, by decide⟩

/-- Claim C10 (confirmed): token neutralization in the gate is
case-insensitive — every letter-case variant of every allowed token (obtained
by flipping the case of any subset of its positions) passes the gate with an
empty reason list. -/
theorem C10_token_case_insensitive (tok : String)
    (htok : tok ∈ allowedTokenStrings) (bs : List Bool) :
    pii_gate_check ⟨applyCase bs tok.data⟩ = (true, []) :=
  gate_safe_on_token_variant htok bs

/-- Witness for C10: the lower-case variant "[phone]" of the allowed token
"[PHONE]" passes the gate with no reasons. -/
theorem C10_token_case_witness : pii_gate_check "[phone]" = (true, []) := by
  have h := C10_token_case_insensitive "[PHONE]" (by decide)
    [false, true, true, true, true, true]
  have e : (⟨applyCase [false, true, true, true, true, true] "[PHONE]".data⟩ : String) =
      "[phone]" := by decide
  rw [e] at h
  exact h

end Arbetsytan
